import Mathlib

/-!
# RGP interop: event correspondence index and command codec

A shallow embedding of `qrenderdoc/Code/RGPInterop.{h,cpp}` and of the marker
tags of `renderdoc/driver/ihv/amd/amd_rgp.cpp`.

Conventions of the embedding:

* `QString` is a list of characters; the Qt string functions the code calls
  (`split`, `indexOf`, `left`, `mid`, `startsWith`, `trimmed`) are written out
  below with Qt's documented results.
* `rdcarray<T>` and `QStringList` are lists.  `operator[]` on them performs no
  bounds check in the source, so an access outside the array has no defined
  result: every function that indexes returns `Option`, and `none` stands for
  such an access.
* `uint32_t` values are natural numbers, reduced modulo `2^32` where the source
  casts or adds.
* `qWarning()` output, the session update `SetEventID` and the clipboard write
  are recorded in order as a list of `Effect`s.
-/

namespace RenderDoc

/-! ## Qt strings -/

abbrev QString := List Char

/-- The string literal helper `lit("...")`. -/
def lit (s : String) : QString := s.toList

/-- `QString::split(sep)` with the default `KeepEmptyParts`: the pieces between
separators; an empty string gives one empty piece. -/
def split (sep : Char) : QString → List QString
  | [] => [[]]
  | c :: cs =>
    if c = sep then [] :: split sep cs
    else
      match split sep cs with
      | [] => [[c]]
      | l :: ls => (c :: l) :: ls

/-- `QString::startsWith`. -/
def startsWith (s pre : QString) : Bool := pre.isPrefixOf s

/-- `QString::indexOf(QString)`: position of the first occurrence, `-1` when
there is none. -/
def indexOf : QString → QString → Int
  | [], pat => if pat.isEmpty then 0 else -1
  | c :: cs, pat =>
    if pat.isPrefixOf (c :: cs) then 0
    else
      let r := indexOf cs pat
      if r < 0 then -1 else r + 1

/-- `QString::indexOf(QChar)`: position of the first occurrence, `-1` when
there is none. -/
def indexOfChar : QString → Char → Int
  | [], _ => -1
  | c :: cs, ch =>
    if c = ch then 0
    else
      let r := indexOfChar cs ch
      if r < 0 then -1 else r + 1

/-- `QString::left(n)` for `n ≥ 0`. -/
def left (s : QString) (n : Nat) : QString := s.take n

/-- `QString::mid(n)` for `n ≥ 0`. -/
def mid (s : QString) (n : Nat) : QString := s.drop n

/-- `QChar::isSpace`: the ASCII white space `\t \n \v \f \r` and space, and the
Unicode separators. -/
def isSpace (c : Char) : Bool :=
  let u := c.toNat
  u == 0x20 || (0x09 ≤ u && u ≤ 0x0d) || u == 0x85 || u == 0xa0 || u == 0x1680 ||
    (0x2000 ≤ u && u ≤ 0x200a) || u == 0x2028 || u == 0x2029 || u == 0x202f ||
    u == 0x205f || u == 0x3000

/-- `QString::trimmed()`: white space removed from both ends. -/
def trimmed (s : QString) : QString :=
  ((s.dropWhile isSpace).reverse.dropWhile isSpace).reverse

/-- Decimal rendering of an unsigned number, as `QVariant(uint).toString()`. -/
def uintToString (n : Nat) : QString := Nat.toDigits 10 n

/-- Value of a decimal digit character. -/
def digitValue (c : Char) : Option Nat :=
  if '0' ≤ c ∧ c ≤ '9' then some (c.toNat - '0'.toNat) else none

/-- Reads a run of decimal digits onto an accumulator; `none` on any other
character. -/
def parseDigits : Nat → QString → Option Nat
  | acc, [] => some acc
  | acc, c :: cs =>
    match digitValue c with
    | none => none
    | some d => parseDigits (acc * 10 + d) cs

/-- A numeral without its leading `+` sign, when it has one. -/
def stripPlus : QString → QString
  | '+' :: rest => rest
  | t => t

/-- `QString::toULongLong()` in base 10, the conversion Qt applies to the text
of a string variant: white space at both ends is ignored, one leading `+` is
accepted (a `-` is not), and what remains must be a non-empty run of decimal
digits whose value fits 64 bits; `none` is a failed conversion. -/
def toULongLong (s : QString) : Option Nat :=
  let digits := stripPlus (trimmed s)
  if digits.isEmpty then none
  else
    match parseDigits 0 digits with
    | none => none
    | some n => if n < 2 ^ 64 then some n else none

/-- `QVariant(QString).value<uint32_t>()`: the text is converted by
`toULongLong` and the number cast to 32 bits; a failed conversion gives the
default value `0`. -/
def toUInt (s : QString) : Nat :=
  match toULongLong s with
  | none => 0
  | some n => n % 2 ^ 32

/-- A `QVariant` as this code uses it: a string or an unsigned number. -/
inductive QVariant where
  | str (s : QString)
  | uint (n : Nat)
  deriving DecidableEq, Repr

/-- `QVariant::toString()`. -/
def QVariant.toString : QVariant → QString
  | .str s => s
  | .uint n => uintToString n

/-- `QVariant::value<uint32_t>()`. -/
def QVariant.toUInt : QVariant → Nat
  | .str s => RenderDoc.toUInt s
  | .uint n => n % 2 ^ 32

abbrev QVariantList := List QVariant

/-! ## The event catalog -/

/-- An `APIEvent`: one API call, with its event id and the index of its chunk in
the structured file. -/
structure APIEvent where
  eventId : Nat
  chunkIndex : Nat
  deriving DecidableEq, Repr

/-- A `DrawcallDescription`: a draw with its own event id and name, the events
that belong to it and its child draws. -/
inductive DrawcallDescription where
  | mk (eventId : Nat) (name : QString) (events : List APIEvent)
      (children : List DrawcallDescription)

namespace DrawcallDescription

def eventId : DrawcallDescription → Nat
  | mk e _ _ _ => e

def name : DrawcallDescription → QString
  | mk _ n _ _ => n

def events : DrawcallDescription → List APIEvent
  | mk _ _ evs _ => evs

def children : DrawcallDescription → List DrawcallDescription
  | mk _ _ _ cs => cs

end DrawcallDescription

/-- An `SDChunk` of the structured file; only its name is read. -/
structure SDChunk where
  name : QString
  deriving DecidableEq, Repr

/-- The `GraphicsAPI` enumeration of the replay API. -/
inductive GraphicsAPI where
  | D3D11
  | D3D12
  | OpenGL
  | Vulkan
  deriving DecidableEq, Repr

/-- What the code reads from `ICaptureContext`: the pipeline type of
`APIProps()`, the draws of `CurDrawcalls()`, the event id of
`GetLastDrawcall()` (`none` for a null pointer), the chunks of
`GetStructuredFile()` and the lookup `GetDrawcall(eventId)` (`none` for a null
pointer). -/
structure ICaptureContext where
  pipelineType : GraphicsAPI
  CurDrawcalls : List DrawcallDescription
  GetLastDrawcall : Option Nat
  chunks : List SDChunk
  GetDrawcall : Nat → Option DrawcallDescription

/-! ## The interop object -/

/-- The `RGPCommand` enumeration. -/
inductive RGPCommand where
  | SetEvent
  deriving DecidableEq, Repr

/-- `ToQStr(RGPCommand)`, from `DoStringise`. -/
def ToQStr : RGPCommand → QString
  | .SetEvent => lit "set_event"

/-- An `RGPInteropEvent`; a default-constructed one is all zero with an empty
name. -/
structure RGPInteropEvent where
  rgplinearid : Nat := 0
  cmdbufid : Nat := 0
  eventname : QString := []
  deriving DecidableEq, Repr

/-- `RGPInteropEvent::toParams`: name and value alternate. -/
def RGPInteropEvent.toParams (ev : RGPInteropEvent) (_version : Nat) : QVariantList :=
  [.str (lit "rgplinearid"), .uint ev.rgplinearid,
   .str (lit "cmdbufid"), .uint ev.cmdbufid,
   .str (lit "eventname"), .str ev.eventname]

/-- The kinds of `qWarning()` message the code prints. -/
inductive Warning where
  | unrecognisedParam (paramName : QString)
  | unknownEvent (ev : RGPInteropEvent)
  | nameMismatch (expected got : QString)
  | malformedCommand
  | commandMismatch
  | malformedParam (param : QString)
  | malformedParamKey (commandName key : QString)
  | unrecognisedCommand (commandName : QString)
  deriving DecidableEq, Repr

/-- What a call does to the world outside the interop object, in order. -/
inductive Effect where
  | warning (w : Warning)
  | SetEventID (selectedEventID eventID : Nat)
  | clipboardSetText (text : QString)
  deriving DecidableEq, Repr

/-- `RGPInteropEvent::fromParams`: the list is read in pairs; each pair sets
the field its name spells, and any other name is warned about. The result is
the event with the warnings printed. -/
def RGPInteropEvent.fromParams (ev : RGPInteropEvent) (_version : Nat) :
    QVariantList → RGPInteropEvent × List Effect
  | k :: v :: rest =>
    let paramName := k.toString
    if paramName = lit "rgplinearid" then
      RGPInteropEvent.fromParams { ev with rgplinearid := v.toUInt } _version rest
    else if paramName = lit "cmdbufid" then
      RGPInteropEvent.fromParams { ev with cmdbufid := v.toUInt } _version rest
    else if paramName = lit "eventname" then
      RGPInteropEvent.fromParams { ev with eventname := v.toString } _version rest
    else
      let r := RGPInteropEvent.fromParams ev _version rest
      (r.1, .warning (.unrecognisedParam paramName) :: r.2)
  | _ => (ev, [])

/-- The data members of `RGPInterop` (the context reference is passed to the
methods instead). -/
structure RGPInterop where
  m_Version : Nat := 0
  m_EventNames : List QString := []
  m_Event2RGP : List RGPInteropEvent := []
  m_RGP2Event : List Nat := []
  deriving DecidableEq, Repr

namespace RGPInterop

/-- The operation names the constructor selects for an API and a version. -/
def eventNames (api : GraphicsAPI) (version : Nat) : List QString :=
  if api = .Vulkan then
    if version = 1 then [lit "vkCmdDispatch", lit "vkCmdDraw", lit "vkCmdDrawIndexed"]
    else []
  else if api = .D3D12 then
    if version = 1 then
      [lit "ID3D12GraphicsCommandList::Dispatch",
       lit "ID3D12GraphicsCommandList::DrawInstanced",
       lit "ID3D12GraphicsCommandList::DrawIndexedInstanced"]
    else []
  else []

/-- The body of the inner loop of `CreateMapping` for one event `ev` of a draw
with the given id and name. -/
def CreateMapping.event (chunks : List SDChunk) (drawEventId : Nat) (drawName : QString)
    (self : RGPInterop) (ev : APIEvent) : Option RGPInterop :=
  if ev.chunkIndex = 0 ∨ ev.chunkIndex ≥ chunks.length then some self
  else
    match chunks[ev.chunkIndex]? with
    | none => none
    | some chunk =>
      if self.m_EventNames.contains chunk.name then
        match self.m_Event2RGP[ev.eventId]? with
        | none => none
        | some old =>
          let linear := self.m_RGP2Event.length % 2 ^ 32
          let entry : RGPInteropEvent :=
            if ev.eventId = drawEventId then
              { old with rgplinearid := linear, eventname := drawName }
            else
              { old with rgplinearid := linear, eventname := chunk.name }
          some { self with
            m_Event2RGP := self.m_Event2RGP.set ev.eventId entry
            m_RGP2Event := self.m_RGP2Event ++ [ev.eventId] }
      else some self

/-- The inner loop of `CreateMapping` over the events of one draw. -/
def CreateMapping.events (chunks : List SDChunk) (drawEventId : Nat) (drawName : QString) :
    List APIEvent → RGPInterop → Option RGPInterop
  | [], self => some self
  | ev :: rest, self =>
    match CreateMapping.event chunks drawEventId drawName self ev with
    | none => none
    | some self1 => CreateMapping.events chunks drawEventId drawName rest self1

mutual
/-- `RGPInterop::CreateMapping`: for each draw in order, its events, then its
children, then the next sibling. -/
def CreateMapping (chunks : List SDChunk) :
    List DrawcallDescription → RGPInterop → Option RGPInterop
  | [], self => some self
  | draw :: rest, self =>
    match CreateMapping.draw chunks draw self with
    | none => none
    | some self1 => CreateMapping chunks rest self1
/-- The body of the outer loop of `CreateMapping` for one draw. -/
def CreateMapping.draw (chunks : List SDChunk) :
    DrawcallDescription → RGPInterop → Option RGPInterop
  | .mk eventId name events children, self =>
    match CreateMapping.events chunks eventId name events self with
    | none => none
    | some self1 =>
      if children.isEmpty then some self1
      else CreateMapping chunks children self1
end

/-- The constructor `RGPInterop::RGPInterop(version, ctx)`. -/
def init (version : Nat) (ctx : ICaptureContext) : Option RGPInterop :=
  let names := eventNames ctx.pipelineType version
  if names.isEmpty then some { m_Version := version, m_EventNames := names }
  else
    match ctx.GetLastDrawcall with
    | none => none
    | some last =>
      CreateMapping ctx.chunks ctx.CurDrawcalls
        { m_Version := version
          m_EventNames := names
          m_Event2RGP := List.replicate ((last + 1) % 2 ^ 32) {}
          m_RGP2Event := [0] }

/-- `RGPInterop::Valid()`. -/
def Valid (self : RGPInterop) : Bool := !self.m_Event2RGP.isEmpty

/-- The loop of `EncodeCommand` over the parameters, taken in pairs. The format
`"%1.%2=%3\n"` is filled with the command, the name and the value; since
`QString::arg` fills the lowest place marker left in the string, this is the
text produced when neither the command nor the name holds a `%` marker of its
own. -/
def EncodeCommand.params (cmd : QString) : QVariantList → QString
  | k :: v :: rest =>
    cmd ++ lit "." ++ k.toString ++ lit "=" ++ v.toString ++ lit "\n" ++
      EncodeCommand.params cmd rest
  | _ => []

/-- `RGPInterop::EncodeCommand`. -/
def EncodeCommand (command : RGPCommand) (params : QVariantList) : QString :=
  let cmd := ToQStr command
  lit "command=" ++ cmd ++ lit "\n" ++ EncodeCommand.params cmd params ++
    lit "endcommand=" ++ cmd ++ lit "\n"

/-- `RGPInterop::SelectEvent`. -/
def SelectEvent (self : RGPInterop) (eventId : Nat) : Option (List Effect) :=
  match self.m_Event2RGP[eventId]? with
  | none => none
  | some ev =>
    if ev.rgplinearid = 0 then some []
    else
      let encoded := EncodeCommand .SetEvent (ev.toParams self.m_Version)
      some [.clipboardSetText (trimmed encoded)]

/-- `RGPInterop::EventSelected`. -/
def EventSelected (self : RGPInterop) (ctx : ICaptureContext) (event : RGPInteropEvent) :
    Option (List Effect) :=
  match self.m_RGP2Event[event.rgplinearid]? with
  | none => none
  | some eventId =>
    if eventId = 0 then some [.warning (.unknownEvent event)]
    else
      let mismatch : List Effect :=
        match ctx.GetDrawcall eventId with
        | none => []
        | some draw =>
          if draw.name ≠ event.eventname then
            [.warning (.nameMismatch event.eventname draw.name)]
          else []
      some (mismatch ++ [.SetEventID eventId eventId])

/-- The first part of `DecodeCommand` (up to the two `pop` calls): the command
name and the interior lines, or the warning printed before `return false`. -/
def DecodeCommand.header (command : QString) : Option (Warning ⊕ (QString × List QString)) :=
  let lines := split '\n' command
  match lines.head?, lines.getLast? with
  | some first, some last =>
    if indexOf first (lit "command=") ≠ 0 ∨ indexOf last (lit "endcommand=") ≠ 0 then
      some (.inl .malformedCommand)
    else
      match (split '=' first)[1]?, (split '=' last)[1]? with
      | some commandName, some endName =>
        if endName ≠ commandName then some (.inl .commandMismatch)
        else some (.inr (commandName, (lines.drop 1).dropLast))
      | _, _ => none
  | _, _ => none

/-- The parameter loop of `DecodeCommand` over the interior lines: the list of
names and values built, and the warnings printed. -/
def DecodeCommand.params (commandName : QString) : List QString → QVariantList × List Effect
  | [] => ([], [])
  | param :: rest =>
    let r := DecodeCommand.params commandName rest
    let eq := indexOfChar param '='
    if eq < 0 then (r.1, .warning (.malformedParam param) :: r.2)
    else
      let key := left param eq.toNat
      let value := mid param (eq.toNat + 1)
      let pre := commandName ++ lit "."
      if !startsWith key pre then
        (r.1, .warning (.malformedParamKey commandName key) :: r.2)
      else
        (.str (mid key pre.length) :: .str value :: r.1, r.2)

/-- The last part of `DecodeCommand`: the dispatch on the command name. -/
def DecodeCommand.dispatch (self : RGPInterop) (ctx : ICaptureContext)
    (commandName : QString) (params : QVariantList) : Option (Bool × List Effect) :=
  if commandName = ToQStr .SetEvent then
    let r := RGPInteropEvent.fromParams {} self.m_Version params
    match EventSelected self ctx r.1 with
    | none => none
    | some effects => some (true, r.2 ++ effects)
  else some (false, [.warning (.unrecognisedCommand commandName)])

/-- `RGPInterop::DecodeCommand`: the value returned and what the call did. -/
def DecodeCommand (self : RGPInterop) (ctx : ICaptureContext) (command : QString) :
    Option (Bool × List Effect) :=
  match DecodeCommand.header command with
  | none => none
  | some (.inl w) => some (false, [.warning w])
  | some (.inr (commandName, lines)) =>
    let r := DecodeCommand.params commandName lines
    match DecodeCommand.dispatch self ctx commandName r.1 with
    | none => none
    | some (ok, effects) => some (ok, r.2 ++ effects)

/-- `RGPInterop::HackProcessInput`. -/
def HackProcessInput (self : RGPInterop) (ctx : ICaptureContext) (input : QString) :
    Option (Bool × List Effect) :=
  DecodeCommand self ctx input

end RGPInterop

/-! ## Notions used to state the properties -/

/-- The calls of `SetEventID` among the effects of a call. -/
def setEventCalls : List Effect → List (Nat × Nat)
  | [] => []
  | .SetEventID a b :: rest => (a, b) :: setEventCalls rest
  | _ :: rest => setEventCalls rest

/-- The warnings among the effects of a call. -/
def warnings : List Effect → List Warning
  | [] => []
  | .warning w :: rest => w :: warnings rest
  | _ :: rest => warnings rest

mutual
/-- The draws of a catalog in depth-first order: a draw, then its children,
then its next sibling. -/
def preorder : List DrawcallDescription → List DrawcallDescription
  | [] => []
  | draw :: rest => preorder.draw draw ++ preorder rest
/-- A draw followed by its descendants in depth-first order. -/
def preorder.draw : DrawcallDescription → List DrawcallDescription
  | .mk eventId name events children => .mk eventId name events children :: preorder children
end

/-- The operation (chunk) name of a sub-event, when it has a chunk. -/
def chunkName (chunks : List SDChunk) (ev : APIEvent) : Option QString :=
  if ev.chunkIndex = 0 then none else (chunks[ev.chunkIndex]?).map SDChunk.name

/-- A sub-event matches when it has a chunk whose name is in the name set. -/
def isMatch (names : List QString) (chunks : List SDChunk) (ev : APIEvent) : Bool :=
  match chunkName chunks ev with
  | none => false
  | some n => names.contains n

/-- The matched sub-events of a catalog in traversal order, each with its
enclosing draw. -/
def matchedEvents (names : List QString) (chunks : List SDChunk)
    (draws : List DrawcallDescription) : List (DrawcallDescription × APIEvent) :=
  (preorder draws).flatMap fun d => (d.events.filter (isMatch names chunks)).map fun ev => (d, ev)

/-- The internal event ids of the matched sub-events, in traversal order. -/
def matchedIds (names : List QString) (chunks : List SDChunk)
    (draws : List DrawcallDescription) : List Nat :=
  (matchedEvents names chunks draws).map fun p => p.2.eventId

/-- The display name of a matched sub-event of a draw. -/
def displayName (chunks : List SDChunk) (d : DrawcallDescription) (ev : APIEvent) : QString :=
  if ev.eventId = d.eventId then d.name else (chunkName chunks ev).getD []

/-- The assignment `CreateMapping` makes for one matched sub-event with
internal id `id` and display name `name`. -/
def record (self : RGPInterop) (id : Nat) (name : QString) : Option RGPInterop :=
  match self.m_Event2RGP[id]? with
  | none => none
  | some old =>
    some { self with
      m_Event2RGP := self.m_Event2RGP.set id
        { old with rgplinearid := self.m_RGP2Event.length % 2 ^ 32, eventname := name }
      m_RGP2Event := self.m_RGP2Event ++ [id] }

/-- The assignments for a list of matched sub-events, in order. -/
def recordAll : List (Nat × QString) → RGPInterop → Option RGPInterop
  | [], self => some self
  | p :: rest, self =>
    match record self p.1 p.2 with
    | none => none
    | some self1 => recordAll rest self1

/-- The matched sub-events of the events of one draw, as (id, display name). -/
def drawEntries (names : List QString) (chunks : List SDChunk) (d : DrawcallDescription) :
    List (Nat × QString) :=
  (d.events.filter (isMatch names chunks)).map fun ev => (ev.eventId, displayName chunks d ev)

/-- The matched sub-events of a catalog in traversal order, as (id, display
name). -/
def matchedEntries (names : List QString) (chunks : List SDChunk)
    (draws : List DrawcallDescription) : List (Nat × QString) :=
  (preorder draws).flatMap (drawEntries names chunks)

/-- The catalog fits the constructor's arrays: there is a last draw (the
constructor dereferences `GetLastDrawcall()`), its event id plus one fits 32
bits (the size given to `resize`), no matched sub-event has a larger id
(`CreateMapping` writes `m_Event2RGP[ev.eventId]` unchecked), and the number of
matches fits 32 bits (the cast of `m_RGP2Event.size()`). -/
def InRange (ctx : ICaptureContext) (version : Nat) : Prop :=
  match ctx.GetLastDrawcall with
  | none => False
  | some last =>
    last + 1 < 2 ^ 32 ∧
    (∀ id ∈ matchedIds (RGPInterop.eventNames ctx.pipelineType version) ctx.chunks
      ctx.CurDrawcalls, id ≤ last) ∧
    (matchedIds (RGPInterop.eventNames ctx.pipelineType version) ctx.chunks
      ctx.CurDrawcalls).length < 2 ^ 32

instance (ctx : ICaptureContext) (version : Nat) : Decidable (InRange ctx version) := by
  unfold InRange
  split <;> infer_instance

/-- No two matched sub-events share an internal event id: event ids identify
the events of a capture. -/
def DistinctIds (ctx : ICaptureContext) (version : Nat) : Prop :=
  (matchedIds (RGPInterop.eventNames ctx.pipelineType version) ctx.chunks
    ctx.CurDrawcalls).Nodup

instance (ctx : ICaptureContext) (version : Nat) : Decidable (DistinctIds ctx version) := by
  unfold DistinctIds
  infer_instance

/-! ## Marker tags (`amd_rgp.cpp`) -/

/-- The conversion `uint64_t(char)` of a byte `b < 256`: where `char` is signed
a byte of 128 or more is a negative value and sign-extends. -/
def charToUInt64 (signedChar : Bool) (b : Nat) : Nat :=
  if signedChar ∧ 128 ≤ b then 2 ^ 64 - 256 + b else b

/-- The loop of `MakeTagFromMarker` from index `i` on, over the bytes of the
marker from that index; the end of the list is the terminating NUL. -/
def MakeTagFromMarker.loop (signedChar : Bool) : Nat → List Nat → Nat → Nat
  | _, [], ret => ret
  | i, c :: rest, ret =>
    if i < 7 ∧ c ≠ 0 then
      MakeTagFromMarker.loop signedChar (i + 1) rest
        (ret ||| (charToUInt64 signedChar c <<< (i * 8)) % 2 ^ 64)
    else ret

/-- `MakeTagFromMarker`; `none` is the null pointer. -/
def MakeTagFromMarker (signedChar : Bool) : Option (List Nat) → Nat
  | none => 0
  | some marker => MakeTagFromMarker.loop signedChar 0 marker 0

/-- The bytes of an ASCII string literal. -/
def cstr (s : String) : List Nat := s.toList.map Char.toNat

namespace AMDRGPControl

/-- `AMDRGPControl::GetBeginMarker`. -/
def GetBeginMarker : List Nat := cstr "BeginRenderDocRGPCapture======"

/-- `AMDRGPControl::GetEndMarker`. -/
def GetEndMarker : List Nat := cstr "EndRenderDocRGPCapture======"

/-- `AMDRGPControl::GetBeginTag`. -/
def GetBeginTag (signedChar : Bool) : Nat := MakeTagFromMarker signedChar (some GetBeginMarker)

/-- `AMDRGPControl::GetEndTag`. -/
def GetEndTag (signedChar : Bool) : Nat := MakeTagFromMarker signedChar (some GetEndMarker)

end AMDRGPControl

/-! ## Scenario data -/

/-- The catalog of the scenarios: one draw with internal id 5 and name
`DrawIndexed` whose own sub-event is a `vkCmdDrawIndexed` chunk. -/
def scenarioDraw : DrawcallDescription :=
  .mk 5 (lit "DrawIndexed") [{ eventId := 5, chunkIndex := 1 }] []

/-- The capture context of the scenarios (Vulkan). -/
def scenarioCtx : ICaptureContext :=
  { pipelineType := .Vulkan
    CurDrawcalls := [scenarioDraw]
    GetLastDrawcall := some 5
    chunks := [{ name := lit "" }, { name := lit "vkCmdDrawIndexed" }]
    GetDrawcall := fun e => if e = 5 then some scenarioDraw else none }

/-- The index the constructor builds for the scenario catalog. -/
def scenarioIndex : RGPInterop :=
  { m_Version := 1
    m_EventNames := RGPInterop.eventNames .Vulkan 1
    m_Event2RGP := List.replicate 5 {} ++
      [{ rgplinearid := 1, cmdbufid := 0, eventname := lit "DrawIndexed" }]
    m_RGP2Event := [0, 5] }

/-- The reverse index inverts the forward index wherever the forward entry is
not zero. -/
def ReverseOfForward (s : RGPInterop) : Prop :=
  ∀ (e : Nat) (ev : RGPInteropEvent), s.m_Event2RGP[e]? = some ev → ev.rgplinearid ≠ 0 →
    s.m_RGP2Event[ev.rgplinearid]? = some e

/-- The state in which the constructor calls `CreateMapping`. -/
def initial (version : Nat) (names : List QString) (last : Nat) : RGPInterop :=
  { m_Version := version
    m_EventNames := names
    m_Event2RGP := List.replicate ((last + 1) % 2 ^ 32) {}
    m_RGP2Event := [0] }

/-- The scenario catalog replayed on an API without a name set (D3D11). -/
def inactiveCtx : ICaptureContext :=
  { scenarioCtx with pipelineType := .D3D11 }

/-- The text of a line before its first `=` (the whole line when it has
none). -/
def beforeEq (line : QString) : QString := line.takeWhile (· != '=')

/-- The text of a line after its first `=` (empty when it has none). -/
def afterEq (line : QString) : QString := (line.dropWhile (· != '=')).drop 1

/-- The text of a line between its first `=` and the next `=` or the end of the
line. -/
def nameField (line : QString) : QString := beforeEq (afterEq line)

/-- The parameter an interior line stands for, in the words of the
specification: a line that contains `=` and whose text before the first `=`
starts with the command name and a dot gives the key without that prefix and
the text after the first `=`. -/
def lineParam (commandName line : QString) : Option (QString × QString) :=
  if line.contains '=' && startsWith (beforeEq line) (commandName ++ lit ".") then
    some (mid (beforeEq line) (commandName.length + 1), afterEq line)
  else none

/-- A list of (key, value) pairs as the alternating list `DecodeCommand`
builds. -/
def paramList (pairs : List (QString × QString)) : QVariantList :=
  pairs.flatMap fun p => [.str p.1, .str p.2]

/-- The malformed set_event block of the counterexample to C6: the names after
`command=` and `endcommand=` differ after a second `=`. -/
def mismatchText : QString := lit "command=set_event=x\nendcommand=set_event=y"

/-- A set_event block whose linear id 0 resolves to no internal event. -/
def unresolvedText : QString :=
  lit "command=set_event\nset_event.rgplinearid=0\nendcommand=set_event"

/-- The set_event block of the scenarios, for linear id 1. -/
def scenarioText : QString :=
  lit "command=set_event\nset_event.rgplinearid=1\nset_event.cmdbufid=0\nset_event.eventname=DrawIndexed\nendcommand=set_event"

/-- The same block with the unmapped linear id 99. -/
def unmappedText : QString :=
  lit "command=set_event\nset_event.rgplinearid=99\nset_event.cmdbufid=0\nset_event.eventname=DrawIndexed\nendcommand=set_event"

/-- Lines joined by newlines. -/
def joinLines (ls : List QString) : QString := (lit "\n").intercalate ls

/-- The five lines of the set_event block for a forward entry. -/
def setEventBlock (ev : RGPInteropEvent) : List QString :=
  [lit "command=set_event",
   lit "set_event.rgplinearid=" ++ uintToString ev.rgplinearid,
   lit "set_event.cmdbufid=0",
   lit "set_event.eventname=" ++ ev.eventname,
   lit "endcommand=set_event"]

/-- A list of (name, value) pairs as the alternating list `EncodeCommand`
takes. -/
def flatPairs (pairs : List (QVariant × QVariant)) : QVariantList :=
  pairs.flatMap fun p => [p.1, p.2]

/-- The line `EncodeCommand` writes for one parameter of `set_event`. -/
def paramLine (p : QVariant × QVariant) : QString :=
  lit "set_event" ++ lit "." ++ p.1.toString ++ lit "=" ++ p.2.toString

open RGPInterop

/-! ## The traversal as a list of assignments -/

theorem record_names (s s' : RGPInterop) (id : Nat) (n : QString) (h : record s id n = some s') :
    s'.m_EventNames = s.m_EventNames ∧ s'.m_Version = s.m_Version ∧
    s'.m_Event2RGP.length = s.m_Event2RGP.length ∧
    s'.m_RGP2Event = s.m_RGP2Event ++ [id] := by
  unfold record at h
  split at h
  · simp at h
  · simp at h
    subst h
    simp

theorem createMapping_event_eq (chunks : List SDChunk) (dId : Nat) (dName : QString)
    (self : RGPInterop) (ev : APIEvent) :
    CreateMapping.event chunks dId dName self ev =
      if isMatch self.m_EventNames chunks ev then
        record self ev.eventId
          (if ev.eventId = dId then dName else (chunkName chunks ev).getD [])
      else some self := by
  unfold CreateMapping.event isMatch chunkName
  by_cases h0 : ev.chunkIndex = 0
  · simp [h0]
  · by_cases hlen : ev.chunkIndex ≥ chunks.length
    · have : chunks[ev.chunkIndex]? = none := List.getElem?_eq_none hlen
      simp [h0, hlen, this]
    · have hlt : ev.chunkIndex < chunks.length := by omega
      have hget : chunks[ev.chunkIndex]? = some chunks[ev.chunkIndex] := List.getElem?_eq_getElem hlt
      simp only [h0, hlen, hget, false_or, if_false, Option.map_some']
      by_cases hc : self.m_EventNames.contains chunks[ev.chunkIndex].name = true
      · simp only [hc, if_true]
        unfold record
        cases hf : self.m_Event2RGP[ev.eventId]? with
        | none => rfl
        | some old =>
          by_cases hd : ev.eventId = dId
          · simp [hd]
          · simp [hd]
      · simp only [hc]
        simp

theorem recordAll_append (a b : List (Nat × QString)) (s : RGPInterop) :
    recordAll (a ++ b) s = (recordAll a s).bind (recordAll b) := by
  induction a generalizing s with
  | nil => simp [recordAll]
  | cons p rest ih =>
    simp only [List.cons_append, recordAll]
    cases h : record s p.1 p.2 with
    | none => simp
    | some s1 => simp [ih]

theorem recordAll_names (l : List (Nat × QString)) :
    ∀ (s s' : RGPInterop), recordAll l s = some s' →
      s'.m_EventNames = s.m_EventNames ∧ s'.m_Version = s.m_Version ∧
      s'.m_Event2RGP.length = s.m_Event2RGP.length ∧
      s'.m_RGP2Event = s.m_RGP2Event ++ l.map Prod.fst := by
  induction l with
  | nil => intro s s' h; simp [recordAll] at h; subst h; simp
  | cons p rest ih =>
    intro s s' h
    simp only [recordAll] at h
    cases h1 : record s p.1 p.2 with
    | none => simp [h1] at h
    | some s1 =>
      simp only [h1] at h
      obtain ⟨a1, a2, a3, a4⟩ := record_names s s1 _ _ h1
      obtain ⟨b1, b2, b3, b4⟩ := ih s1 s' h
      refine ⟨b1.trans a1, b2.trans a2, b3.trans a3, ?_⟩
      rw [b4, a4]; simp

theorem createMapping_events_eq (chunks : List SDChunk) (d : DrawcallDescription) :
    ∀ (evs : List APIEvent) (self : RGPInterop),
      CreateMapping.events chunks d.eventId d.name evs self =
        recordAll ((evs.filter (isMatch self.m_EventNames chunks)).map
          fun ev => (ev.eventId, displayName chunks d ev)) self := by
  intro evs
  induction evs with
  | nil => intro self; simp [CreateMapping.events, recordAll]
  | cons ev rest ih =>
    intro self
    simp only [CreateMapping.events, createMapping_event_eq]
    by_cases hm : isMatch self.m_EventNames chunks ev = true
    · simp only [hm, if_true, List.filter_cons_of_pos, List.map_cons, recordAll]
      have hn : (if ev.eventId = d.eventId then d.name else (chunkName chunks ev).getD []) =
          displayName chunks d ev := rfl
      rw [hn]
      cases h1 : record self ev.eventId (displayName chunks d ev) with
      | none => rfl
      | some s1 =>
        simp only
        rw [ih s1, (record_names self s1 _ _ h1).1]
    · simp only [hm, List.filter_cons_of_neg, Bool.false_eq_true, if_false, not_false_eq_true]
      exact ih self

mutual
theorem createMapping_eq (chunks : List SDChunk) :
    ∀ (draws : List DrawcallDescription) (self : RGPInterop),
      CreateMapping chunks draws self =
        recordAll (matchedEntries self.m_EventNames chunks draws) self
  | [], self => by simp [CreateMapping, matchedEntries, preorder, recordAll]
  | draw :: rest, self => by
    have hd := createMapping_draw_eq chunks draw self
    unfold CreateMapping
    rw [hd]
    have hsplit : matchedEntries self.m_EventNames chunks (draw :: rest) =
        matchedEntries self.m_EventNames chunks [draw] ++
          matchedEntries self.m_EventNames chunks rest := by
      simp [matchedEntries, preorder]
    rw [hsplit, recordAll_append]
    cases h1 : recordAll (matchedEntries self.m_EventNames chunks [draw]) self with
    | none => rfl
    | some s1 =>
      show CreateMapping chunks rest s1 = recordAll (matchedEntries self.m_EventNames chunks rest) s1
      rw [createMapping_eq chunks rest s1, (recordAll_names _ _ _ h1).1]
theorem createMapping_draw_eq (chunks : List SDChunk) :
    ∀ (draw : DrawcallDescription) (self : RGPInterop),
      CreateMapping.draw chunks draw self =
        recordAll (matchedEntries self.m_EventNames chunks [draw]) self
  | .mk eventId name events children, self => by
    unfold CreateMapping.draw
    have he := createMapping_events_eq chunks (.mk eventId name events children) events self
    simp only [DrawcallDescription.eventId, DrawcallDescription.name] at he
    rw [he]
    have hsplit : matchedEntries self.m_EventNames chunks [.mk eventId name events children] =
        drawEntries self.m_EventNames chunks (.mk eventId name events children) ++
          matchedEntries self.m_EventNames chunks children := by
      simp [matchedEntries, preorder, preorder.draw]
    rw [hsplit, recordAll_append]
    have hde : drawEntries self.m_EventNames chunks (.mk eventId name events children) =
        (events.filter (isMatch self.m_EventNames chunks)).map
          fun ev => (ev.eventId, displayName chunks (.mk eventId name events children) ev) := rfl
    rw [hde]
    cases h1 : recordAll ((events.filter (isMatch self.m_EventNames chunks)).map
          fun ev => (ev.eventId, displayName chunks (.mk eventId name events children) ev)) self with
    | none => rfl
    | some s1 =>
      cases children with
      | nil => simp [matchedEntries, preorder, recordAll]
      | cons c cs =>
        show CreateMapping chunks (c :: cs) s1 =
          recordAll (matchedEntries self.m_EventNames chunks (c :: cs)) s1
        rw [createMapping_eq chunks (c :: cs) s1, (recordAll_names _ _ _ h1).1]
end

/-! ## Marker tags: proofs -/

theorem charToUInt64_ascii (sc : Bool) {c : Nat} (h : c < 128) : charToUInt64 sc c = c := by
  unfold charToUInt64
  rw [if_neg]
  omega

theorem makeTag_loop_ascii (sc : Bool) :
    ∀ (m : List Nat) (i ret : Nat), (∀ c ∈ m, 0 < c ∧ c < 128) → ret < 2 ^ (8 * i) →
      MakeTagFromMarker.loop sc i m ret = ret + 2 ^ (8 * i) * Nat.ofDigits 256 (m.take (7 - i)) := by
  intro m
  induction m with
  | nil => intro i ret _ _; simp [MakeTagFromMarker.loop]
  | cons c rest ih =>
    intro i ret hm hret
    have hc := hm c (List.mem_cons_self _ _)
    have hrest : ∀ d ∈ rest, 0 < d ∧ d < 128 := fun d hd => hm d (List.mem_cons_of_mem _ hd)
    unfold MakeTagFromMarker.loop
    by_cases hi : i < 7
    · rw [if_pos ⟨hi, by omega⟩, charToUInt64_ascii sc hc.2]
      have hsh : c <<< (i * 8) = 2 ^ (8 * i) * c := by
        rw [Nat.shiftLeft_eq, Nat.mul_comm, Nat.mul_comm i 8]
      have hlt : 2 ^ (8 * i) * c < 2 ^ 64 := by
        calc 2 ^ (8 * i) * c < 2 ^ (8 * i) * 2 ^ 7 := by
              apply Nat.mul_lt_mul_of_pos_left (by omega) (Nat.pow_pos (by norm_num))
          _ = 2 ^ (8 * i + 7) := by rw [← Nat.pow_add]
          _ ≤ 2 ^ 64 := Nat.pow_le_pow_right (by norm_num) (by omega)
      rw [hsh, Nat.mod_eq_of_lt hlt, Nat.lor_comm, ← Nat.mul_add_lt_is_or hret]
      have hnew : 2 ^ (8 * i) * c + ret < 2 ^ (8 * (i + 1)) := by
        have h256 : 2 ^ (8 * (i + 1)) = 2 ^ (8 * i) * 256 := by
          rw [Nat.mul_add, Nat.pow_add]
        rw [h256]
        calc 2 ^ (8 * i) * c + ret < 2 ^ (8 * i) * c + 2 ^ (8 * i) := by omega
          _ = 2 ^ (8 * i) * (c + 1) := by ring
          _ ≤ 2 ^ (8 * i) * 256 := Nat.mul_le_mul_left _ (by omega)
      rw [ih (i + 1) _ hrest hnew]
      have htake : (c :: rest).take (7 - i) = c :: rest.take (7 - (i + 1)) := by
        have : 7 - i = (7 - (i + 1)) + 1 := by omega
        rw [this, List.take_succ_cons]
      rw [htake, Nat.ofDigits_cons]
      have h256 : 2 ^ (8 * (i + 1)) = 2 ^ (8 * i) * 256 := by
        rw [Nat.mul_add, Nat.pow_add]
      rw [h256]
      ring
    · rw [if_neg (by omega)]
      have : 7 - i = 0 := by omega
      simp [this]

theorem makeTag_eq_ofDigits (sc : Bool) (m : List Nat) (hm : ∀ c ∈ m, 0 < c ∧ c < 128) :
    MakeTagFromMarker sc (some m) = Nat.ofDigits 256 (m.take 7) := by
  show MakeTagFromMarker.loop sc 0 m 0 = _
  rw [makeTag_loop_ascii sc m 0 0 hm (by norm_num)]
  simp

theorem ofDigits_byte (L : List Nat) (hL : ∀ c ∈ L, c < 256) :
    ∀ i, Nat.ofDigits 256 L / 2 ^ (8 * i) % 256 = L.getD i 0 := by
  induction L with
  | nil => intro i; simp
  | cons c t ih =>
    intro i
    have hc := hL c (List.mem_cons_self _ _)
    have ht : ∀ d ∈ t, d < 256 := fun d hd => hL d (List.mem_cons_of_mem _ hd)
    rw [Nat.ofDigits_cons]
    cases i with
    | zero => simp; omega
    | succ j =>
      have h256 : 2 ^ (8 * (j + 1)) = 256 * 2 ^ (8 * j) := by
        rw [Nat.mul_add, Nat.pow_add]; ring
      rw [h256, ← Nat.div_div_eq_div_mul]
      have : (c + 256 * Nat.ofDigits 256 t) / 256 = Nat.ofDigits 256 t := by omega
      rw [this, ih ht j]
      simp

theorem take_ascii {m : List Nat} (hm : ∀ c ∈ m, 0 < c ∧ c < 128) (n : Nat) :
    ∀ c ∈ m.take n, 0 < c ∧ c < 128 := fun c hc => hm c (List.mem_of_mem_take hc)

theorem digits_makeTag (sc : Bool) (m : List Nat) (hm : ∀ c ∈ m, 0 < c ∧ c < 128) :
    Nat.digits 256 (MakeTagFromMarker sc (some m)) = m.take 7 := by
  rw [makeTag_eq_ofDigits sc m hm]
  apply Nat.digits_ofDigits 256 (by norm_num)
  · intro l hl
    have := take_ascii hm 7 l hl
    omega
  · intro hne
    have := take_ascii hm 7 _ (List.getLast_mem hne)
    omega

/-- C15: `MakeTagFromMarker` packs the first seven characters of an ASCII
marker, character `i` in bits `8i..8i+7` and nothing above them; the tag of a
non-empty marker is not zero, markers whose first seven characters differ get
different tags, and the begin and end markers of the program are distinct and
non-empty with distinct non-zero tags. -/
theorem makeTagFromMarker_packs (signedChar : Bool) :
    (∀ m : List Nat, (∀ c ∈ m, 0 < c ∧ c < 128) →
      (∀ i, MakeTagFromMarker signedChar (some m) / 2 ^ (8 * i) % 256 = (m.take 7).getD i 0) ∧
      (m ≠ [] → MakeTagFromMarker signedChar (some m) ≠ 0)) ∧
    (∀ m₁ m₂ : List Nat, (∀ c ∈ m₁, 0 < c ∧ c < 128) → (∀ c ∈ m₂, 0 < c ∧ c < 128) →
      m₁.take 7 ≠ m₂.take 7 →
      MakeTagFromMarker signedChar (some m₁) ≠ MakeTagFromMarker signedChar (some m₂)) ∧
    AMDRGPControl.GetBeginMarker ≠ AMDRGPControl.GetEndMarker ∧
    AMDRGPControl.GetBeginMarker ≠ [] ∧ AMDRGPControl.GetEndMarker ≠ [] ∧
    AMDRGPControl.GetBeginTag signedChar ≠ AMDRGPControl.GetEndTag signedChar ∧
    AMDRGPControl.GetBeginTag signedChar ≠ 0 ∧ AMDRGPControl.GetEndTag signedChar ≠ 0 := by
  refine ⟨?_, ?_, by decide, by decide, by decide, ?_, ?_, ?_⟩
  · intro m hm
    refine ⟨fun i => ?_, fun hne h0 => ?_⟩
    · rw [makeTag_eq_ofDigits signedChar m hm]
      exact ofDigits_byte _ (fun c hc => by have := take_ascii hm 7 c hc; omega) i
    · have hd := digits_makeTag signedChar m hm
      rw [h0] at hd
      cases m with
      | nil => exact hne rfl
      | cons c t => simp at hd
  · intro m₁ m₂ h₁ h₂ hne heq
    apply hne
    rw [← digits_makeTag signedChar m₁ h₁, ← digits_makeTag signedChar m₂ h₂, heq]
  · cases signedChar <;> decide
  · cases signedChar <;> decide
  · cases signedChar <;> decide

/-- C15 at the marker `Begin`: it is ASCII and not empty, so its tag is not
zero. -/
theorem makeTagFromMarker_packs_witness :
    MakeTagFromMarker true (some (cstr "Begin")) ≠ 0 :=
  ((makeTagFromMarker_packs true).1 (cstr "Begin") (by decide)).2 (by decide)

/-! ## The index after construction -/


theorem record_eq {s s' : RGPInterop} {id : Nat} {n : QString} (h : record s id n = some s') :
    ∃ old, s.m_Event2RGP[id]? = some old ∧
      s' = { s with
        m_Event2RGP := s.m_Event2RGP.set id
          { old with rgplinearid := s.m_RGP2Event.length % 2 ^ 32, eventname := n }
        m_RGP2Event := s.m_RGP2Event ++ [id] } := by
  unfold record at h
  cases hf : s.m_Event2RGP[id]? with
  | none => simp [hf] at h
  | some old =>
    simp only [hf, Option.some.injEq] at h
    exact ⟨old, rfl, h.symm⟩

theorem record_get_self {s s' : RGPInterop} {id : Nat} {n : QString}
    (h : record s id n = some s') :
    ∃ old, s.m_Event2RGP[id]? = some old ∧
      s'.m_Event2RGP[id]? =
        some { old with rgplinearid := s.m_RGP2Event.length % 2 ^ 32, eventname := n } := by
  obtain ⟨old, hold, rfl⟩ := record_eq h
  refine ⟨old, hold, ?_⟩
  have hlt : id < s.m_Event2RGP.length := by
    by_contra hge
    rw [List.getElem?_eq_none (by omega)] at hold
    cases hold
  simp [List.getElem?_set_self, hlt]

theorem record_get_other {s s' : RGPInterop} {id : Nat} {n : QString}
    (h : record s id n = some s') {e : Nat} (hne : e ≠ id) :
    s'.m_Event2RGP[e]? = s.m_Event2RGP[e]? := by
  obtain ⟨old, _, rfl⟩ := record_eq h
  simp [List.getElem?_set_ne (Ne.symm hne)]

theorem record_some {s : RGPInterop} {id : Nat} (n : QString) (h : id < s.m_Event2RGP.length) :
    ∃ s', record s id n = some s' := by
  unfold record
  rw [List.getElem?_eq_getElem h]
  exact ⟨_, rfl⟩

theorem recordAll_some (l : List (Nat × QString)) :
    ∀ s : RGPInterop, (∀ p ∈ l, p.1 < s.m_Event2RGP.length) → ∃ s', recordAll l s = some s' := by
  induction l with
  | nil => intro s _; exact ⟨s, rfl⟩
  | cons p rest ih =>
    intro s hl
    obtain ⟨s1, h1⟩ := record_some p.2 (hl p (List.mem_cons_self _ _))
    have hlen := (record_names s s1 _ _ h1).2.2.1
    obtain ⟨s', h'⟩ := ih s1 (fun q hq => by rw [hlen]; exact hl q (List.mem_cons_of_mem _ hq))
    exact ⟨s', by simp only [recordAll, h1]; exact h'⟩

theorem recordAll_preserves (P : RGPInterop → Prop)
    (hstep : ∀ s s' id n, record s id n = some s' → P s → P s') (l : List (Nat × QString)) :
    ∀ s s', recordAll l s = some s' → P s → P s' := by
  induction l with
  | nil => intro s s' h hp; simp only [recordAll, Option.some.injEq] at h; exact h ▸ hp
  | cons p rest ih =>
    intro s s' h hp
    simp only [recordAll] at h
    cases h1 : record s p.1 p.2 with
    | none => simp [h1] at h
    | some s1 =>
      simp only [h1] at h
      exact ih s1 s' h (hstep s s1 _ _ h1 hp)

theorem recordAll_untouched (l : List (Nat × QString)) (e : Nat) :
    ∀ s s', recordAll l s = some s' → e ∉ l.map Prod.fst →
      s'.m_Event2RGP[e]? = s.m_Event2RGP[e]? := by
  induction l with
  | nil => intro s s' h _; simp only [recordAll, Option.some.injEq] at h; rw [h]
  | cons p rest ih =>
    intro s s' h he
    simp only [recordAll] at h
    simp only [List.map_cons, List.mem_cons, not_or] at he
    cases h1 : record s p.1 p.2 with
    | none => simp [h1] at h
    | some s1 =>
      simp only [h1] at h
      rw [ih s1 s' h he.2, record_get_other h1 he.1]

theorem record_reverseOfForward (s s' : RGPInterop) (id : Nat) (n : QString)
    (h : record s id n = some s')
    (hp : s.m_RGP2Event.length ≤ 2 ^ 32 → ReverseOfForward s) :
    s'.m_RGP2Event.length ≤ 2 ^ 32 → ReverseOfForward s' := by
  intro hlen
  unfold ReverseOfForward
  intro e ev hev hnz
  have hrev := (record_names s s' id n h).2.2.2
  rw [hrev, List.length_append, List.length_singleton] at hlen
  have hwrap : s.m_RGP2Event.length % 2 ^ 32 = s.m_RGP2Event.length :=
    Nat.mod_eq_of_lt (by omega)
  by_cases hid : e = id
  · subst hid
    obtain ⟨old, _, hnew⟩ := record_get_self h
    rw [hnew] at hev
    cases hev
    simp only [hwrap, hrev]
    simp
  · rw [record_get_other h hid] at hev
    have := hp (by omega) e ev hev hnz
    rw [hrev]
    have hlt : ev.rgplinearid < s.m_RGP2Event.length := by
      by_contra hge
      rw [List.getElem?_eq_none (by omega)] at this
      cases this
    rw [List.getElem?_append_left hlt]
    exact this

theorem recordAll_reverseOfForward (l : List (Nat × QString)) (s s' : RGPInterop)
    (h : recordAll l s = some s') (hs : ReverseOfForward s)
    (hlen : s'.m_RGP2Event.length ≤ 2 ^ 32) : ReverseOfForward s' :=
  recordAll_preserves (fun t => t.m_RGP2Event.length ≤ 2 ^ 32 → ReverseOfForward t)
    record_reverseOfForward l s s' h (fun _ => hs) hlen

theorem recordAll_cmdbufid (l : List (Nat × QString)) (s s' : RGPInterop)
    (h : recordAll l s = some s')
    (hs : ∀ (e : Nat) (ev : RGPInteropEvent), s.m_Event2RGP[e]? = some ev → ev.cmdbufid = 0) :
    ∀ (e : Nat) (ev : RGPInteropEvent), s'.m_Event2RGP[e]? = some ev → ev.cmdbufid = 0 := by
  refine recordAll_preserves
    (fun t => ∀ (e : Nat) (ev : RGPInteropEvent), t.m_Event2RGP[e]? = some ev → ev.cmdbufid = 0)
    ?_ l s s' h hs
  intro t t' id n ht hp e ev hev
  by_cases hid : e = id
  · subst hid
    obtain ⟨old, hold, hnew⟩ := record_get_self ht
    rw [hnew] at hev
    cases hev
    exact hp e old hold
  · rw [record_get_other ht hid] at hev
    exact hp e ev hev

theorem recordAll_assigned (l : List (Nat × QString)) :
    ∀ s s', recordAll l s = some s' → (l.map Prod.fst).Nodup →
      ∀ k (hk : k < l.length), ∃ old, s.m_Event2RGP[l[k].1]? = some old ∧
        s'.m_Event2RGP[l[k].1]? =
          some { old with
            rgplinearid := (s.m_RGP2Event.length + k) % 2 ^ 32, eventname := l[k].2 } := by
  induction l with
  | nil => intro s s' _ _ k hk; simp at hk
  | cons p rest ih =>
    intro s s' h hnd k hk
    simp only [recordAll] at h
    simp only [List.map_cons, List.nodup_cons] at hnd
    cases h1 : record s p.1 p.2 with
    | none => simp [h1] at h
    | some s1 =>
      simp only [h1] at h
      cases k with
      | zero =>
        obtain ⟨old, hold, hnew⟩ := record_get_self h1
        refine ⟨old, hold, ?_⟩
        simp only [List.getElem_cons_zero, Nat.add_zero]
        rw [recordAll_untouched rest p.1 s1 s' h hnd.1, hnew]
      | succ j =>
        have hj : j < rest.length := by simpa using hk
        obtain ⟨old, hold, hnew⟩ := ih s1 s' h hnd.2 j hj
        have hne : rest[j].1 ≠ p.1 := by
          intro heq
          apply hnd.1
          rw [← heq]
          exact List.mem_map_of_mem _ (List.getElem_mem _)
        refine ⟨old, ?_, ?_⟩
        · simp only [List.getElem_cons_succ]
          rw [← record_get_other h1 hne]; exact hold
        · simp only [List.getElem_cons_succ]
          rw [hnew, (record_names s s1 _ _ h1).2.2.2]
          simp only [List.length_append, List.length_singleton]
          have : s.m_RGP2Event.length + 1 + j = s.m_RGP2Event.length + (j + 1) := by omega
          rw [this]

theorem matchedEntries_eq_map (names : List QString) (chunks : List SDChunk)
    (draws : List DrawcallDescription) :
    matchedEntries names chunks draws =
      (matchedEvents names chunks draws).map fun p => (p.2.eventId, displayName chunks p.1 p.2) := by
  unfold matchedEntries matchedEvents
  rw [List.map_flatMap]
  congr 1
  funext d
  simp [drawEntries]

theorem matchedEntries_fst (names : List QString) (chunks : List SDChunk)
    (draws : List DrawcallDescription) :
    (matchedEntries names chunks draws).map Prod.fst = matchedIds names chunks draws := by
  simp [matchedEntries_eq_map, matchedIds]

theorem init_eq_recordAll (version : Nat) (ctx : ICaptureContext) (last : Nat)
    (hnames : eventNames ctx.pipelineType version ≠ [])
    (hlast : ctx.GetLastDrawcall = some last) :
    init version ctx =
      recordAll (matchedEntries (eventNames ctx.pipelineType version) ctx.chunks ctx.CurDrawcalls)
        (initial version (eventNames ctx.pipelineType version) last) := by
  unfold init
  have : (eventNames ctx.pipelineType version).isEmpty = false := by
    cases h : eventNames ctx.pipelineType version with
    | nil => exact absurd h hnames
    | cons a b => rfl
  simp only [this, hlast]
  rw [createMapping_eq]
  rfl

/-- What `InRange` gives: the constructor returns an index, which is the
result of the assignments for the matched sub-events in traversal order. -/
theorem init_some (version : Nat) (ctx : ICaptureContext)
    (hnames : eventNames ctx.pipelineType version ≠ []) (hr : InRange ctx version) :
    ∃ last idx, ctx.GetLastDrawcall = some last ∧ last + 1 < 2 ^ 32 ∧
      (matchedIds (eventNames ctx.pipelineType version) ctx.chunks ctx.CurDrawcalls).length
        < 2 ^ 32 ∧
      init version ctx = some idx ∧
      recordAll (matchedEntries (eventNames ctx.pipelineType version) ctx.chunks ctx.CurDrawcalls)
        (initial version (eventNames ctx.pipelineType version) last) = some idx := by
  unfold InRange at hr
  cases hlast : ctx.GetLastDrawcall with
  | none => simp [hlast] at hr
  | some last =>
    simp only [hlast] at hr
    obtain ⟨h32, hids, hcount⟩ := hr
    have hex := recordAll_some
      (matchedEntries (eventNames ctx.pipelineType version) ctx.chunks ctx.CurDrawcalls)
      (initial version (eventNames ctx.pipelineType version) last) (by
        intro p hp
        have hmem : p.1 ∈ matchedIds (eventNames ctx.pipelineType version) ctx.chunks
            ctx.CurDrawcalls := by
          rw [← matchedEntries_fst]; exact List.mem_map_of_mem _ hp
        have := hids p.1 hmem
        simp only [initial, List.length_replicate]
        rw [Nat.mod_eq_of_lt h32]; omega)
    obtain ⟨idx, hidx⟩ := hex
    exact ⟨last, idx, rfl, h32, hcount, by rw [init_eq_recordAll version ctx last hnames hlast]; exact hidx, hidx⟩

/-! ## The two indices are inverse -/


theorem initial_get (version : Nat) (names : List QString) (last e : Nat)
    (ev : RGPInteropEvent) (h : (initial version names last).m_Event2RGP[e]? = some ev) :
    ev = {} := by
  simp only [initial] at h
  have hmem : ev ∈ List.replicate ((last + 1) % 2 ^ 32) ({} : RGPInteropEvent) :=
    List.getElem?_mem h
  exact (List.mem_replicate.mp hmem).2

/-- The facts about a constructed index that need no distinctness of ids. -/
theorem init_built (version : Nat) (ctx : ICaptureContext)
    (hnames : eventNames ctx.pipelineType version ≠ []) (hr : InRange ctx version) :
    ∃ last idx, ctx.GetLastDrawcall = some last ∧ init version ctx = some idx ∧
      recordAll (matchedEntries (eventNames ctx.pipelineType version) ctx.chunks ctx.CurDrawcalls)
        (initial version (eventNames ctx.pipelineType version) last) = some idx ∧
      idx.m_RGP2Event =
        0 :: matchedIds (eventNames ctx.pipelineType version) ctx.chunks ctx.CurDrawcalls ∧
      idx.m_Event2RGP.length = last + 1 ∧
      idx.m_Version = version ∧
      (matchedIds (eventNames ctx.pipelineType version) ctx.chunks ctx.CurDrawcalls).length
        < 2 ^ 32 ∧
      ReverseOfForward idx ∧
      (∀ (e : Nat) (ev : RGPInteropEvent), idx.m_Event2RGP[e]? = some ev → ev.cmdbufid = 0) := by
  obtain ⟨last, idx, hlast, h32, hcount, hinit, hrec⟩ := init_some version ctx hnames hr
  obtain ⟨_, hv, hlen, hrev⟩ := recordAll_names _ _ _ hrec
  have hrev' : idx.m_RGP2Event =
      0 :: matchedIds (eventNames ctx.pipelineType version) ctx.chunks ctx.CurDrawcalls := by
    rw [hrev, matchedEntries_fst]; rfl
  refine ⟨last, idx, hlast, hinit, hrec, hrev', ?_, ?_, hcount, ?_, ?_⟩
  · rw [hlen]; simp only [initial, List.length_replicate]; exact Nat.mod_eq_of_lt h32
  · rw [hv]; rfl
  · apply recordAll_reverseOfForward _ _ _ hrec
    · intro e ev hev hnz
      exact absurd (by rw [initial_get _ _ _ _ _ hev]) hnz
    · rw [hrev']; simp only [List.length_cons]; omega
  · apply recordAll_cmdbufid _ _ _ hrec
    intro e ev hev
    rw [initial_get _ _ _ _ _ hev]

/-- With distinct ids, the `k`-th matched sub-event holds linear id `k + 1`
and its display name in the forward index. -/
theorem init_assigned (version : Nat) (ctx : ICaptureContext)
    (hnames : eventNames ctx.pipelineType version ≠ []) (hr : InRange ctx version)
    (hd : DistinctIds ctx version) (idx : RGPInterop) (hidx : init version ctx = some idx) :
    ∀ k (hk : k < (matchedEvents (eventNames ctx.pipelineType version) ctx.chunks
        ctx.CurDrawcalls).length),
      idx.m_Event2RGP[((matchedEvents (eventNames ctx.pipelineType version) ctx.chunks
          ctx.CurDrawcalls)[k]).2.eventId]? =
        some { rgplinearid := k + 1, cmdbufid := 0,
               eventname := displayName ctx.chunks
                 ((matchedEvents (eventNames ctx.pipelineType version) ctx.chunks
                    ctx.CurDrawcalls)[k]).1
                 ((matchedEvents (eventNames ctx.pipelineType version) ctx.chunks
                    ctx.CurDrawcalls)[k]).2 } := by
  obtain ⟨last, idx', hlast, hinit, hrec, hrev, hlen, hv, hcount, hrof, hcmd⟩ :=
    init_built version ctx hnames hr
  rw [hinit] at hidx
  cases hidx
  intro k hk
  have hnd : ((matchedEntries (eventNames ctx.pipelineType version) ctx.chunks
      ctx.CurDrawcalls).map Prod.fst).Nodup := by
    rw [matchedEntries_fst]; exact hd
  have hk' : k < (matchedEntries (eventNames ctx.pipelineType version) ctx.chunks
      ctx.CurDrawcalls).length := by
    rw [matchedEntries_eq_map, List.length_map]; exact hk
  obtain ⟨old, hold, hnew⟩ := recordAll_assigned _ _ _ hrec hnd k hk'
  have hentry : (matchedEntries (eventNames ctx.pipelineType version) ctx.chunks
      ctx.CurDrawcalls)[k] =
      (((matchedEvents (eventNames ctx.pipelineType version) ctx.chunks
          ctx.CurDrawcalls)[k]).2.eventId,
       displayName ctx.chunks
         ((matchedEvents (eventNames ctx.pipelineType version) ctx.chunks ctx.CurDrawcalls)[k]).1
         ((matchedEvents (eventNames ctx.pipelineType version) ctx.chunks
            ctx.CurDrawcalls)[k]).2) := by
    simp [matchedEntries_eq_map]
  rw [hentry] at hold hnew
  simp only at hold hnew
  rw [hnew, initial_get _ _ _ _ _ hold]
  have hcount' : k < 2 ^ 32 - 1 := by
    have : (matchedIds (eventNames ctx.pipelineType version) ctx.chunks
        ctx.CurDrawcalls).length = (matchedEvents (eventNames ctx.pipelineType version)
        ctx.chunks ctx.CurDrawcalls).length := by simp [matchedIds]
    omega
  have hmod : ((initial version (eventNames ctx.pipelineType version) last).m_RGP2Event.length
      + k) % 2 ^ 32 = k + 1 := by
    simp only [initial, List.length_singleton]
    rw [Nat.mod_eq_of_lt (by omega)]; omega
  rw [hmod]

/-- C1: after the constructor has built the index (non-empty name set, catalog
in range), every internal event id `e` whose forward entry has a non-zero
`rgplinearid` satisfies `m_RGP2Event[m_Event2RGP[e].rgplinearid] == e`. -/
theorem init_reverse_forward (version : Nat) (ctx : ICaptureContext)
    (hnames : eventNames ctx.pipelineType version ≠ []) (hr : InRange ctx version) :
    ∃ idx, init version ctx = some idx ∧
      ∀ (e : Nat) (ev : RGPInteropEvent), idx.m_Event2RGP[e]? = some ev →
        ev.rgplinearid ≠ 0 → idx.m_RGP2Event[ev.rgplinearid]? = some e := by
  obtain ⟨last, idx, _, hinit, _, _, _, _, _, hrof, _⟩ := init_built version ctx hnames hr
  exact ⟨idx, hinit, hrof⟩

/-- C1 on the scenario catalog. -/
theorem init_reverse_forward_witness :
    ∃ idx, init 1 scenarioCtx = some idx ∧
      ∀ (e : Nat) (ev : RGPInteropEvent), idx.m_Event2RGP[e]? = some ev →
        ev.rgplinearid ≠ 0 → idx.m_RGP2Event[ev.rgplinearid]? = some e :=
  init_reverse_forward 1 scenarioCtx (by decide) (by decide)

/-- C2: after the index is built (non-empty name set, catalog in range, matched
sub-events with distinct ids), the reverse index has `1 + matchCount` entries
and every external linear id `L` with `1 ≤ L ≤ matchCount` satisfies
`m_Event2RGP[m_RGP2Event[L]].rgplinearid == L`. -/
theorem init_forward_reverse (version : Nat) (ctx : ICaptureContext)
    (hnames : eventNames ctx.pipelineType version ≠ []) (hr : InRange ctx version)
    (hd : DistinctIds ctx version) :
    ∃ idx, init version ctx = some idx ∧
      idx.m_RGP2Event.length - 1 =
        (matchedIds (eventNames ctx.pipelineType version) ctx.chunks ctx.CurDrawcalls).length ∧
      ∀ L, 1 ≤ L → L ≤ idx.m_RGP2Event.length - 1 →
        ∃ e ev, idx.m_RGP2Event[L]? = some e ∧ idx.m_Event2RGP[e]? = some ev ∧
          ev.rgplinearid = L := by
  obtain ⟨last, idx, _, hinit, _, hrev, _, _, _, _, _⟩ := init_built version ctx hnames hr
  have hass := init_assigned version ctx hnames hr hd idx hinit
  refine ⟨idx, hinit, by rw [hrev]; simp, ?_⟩
  intro L h1 hL
  rw [hrev] at hL
  simp only [List.length_cons, Nat.add_sub_cancel] at hL
  have hlen : (matchedIds (eventNames ctx.pipelineType version) ctx.chunks
      ctx.CurDrawcalls).length = (matchedEvents (eventNames ctx.pipelineType version)
      ctx.chunks ctx.CurDrawcalls).length := by simp [matchedIds]
  obtain ⟨k, rfl⟩ : ∃ k, L = k + 1 := ⟨L - 1, by omega⟩
  have hk : k < (matchedEvents (eventNames ctx.pipelineType version) ctx.chunks
      ctx.CurDrawcalls).length := by omega
  refine ⟨_, _, ?_, hass k hk, rfl⟩
  rw [hrev, List.getElem?_cons_succ]
  simp only [matchedIds]
  rw [List.getElem?_map, List.getElem?_eq_getElem hk]
  rfl

/-- C2 on the scenario catalog. -/
theorem init_forward_reverse_witness :
    ∃ idx, init 1 scenarioCtx = some idx ∧
      idx.m_RGP2Event.length - 1 =
        (matchedIds (eventNames scenarioCtx.pipelineType 1) scenarioCtx.chunks
          scenarioCtx.CurDrawcalls).length ∧
      ∀ L, 1 ≤ L → L ≤ idx.m_RGP2Event.length - 1 →
        ∃ e ev, idx.m_RGP2Event[L]? = some e ∧ idx.m_Event2RGP[e]? = some ev ∧
          ev.rgplinearid = L :=
  init_forward_reverse 1 scenarioCtx (by decide) (by decide) (by decide)

/-- C3: the reverse index ends as internal id 0 followed by the ids of the
matched sub-events in depth-first traversal order, so its length is
`1 + matchCount` and position `k + 1` belongs to the `k`-th match; every
non-zero linear id in the forward index lies in `1..matchCount` and belongs to
one internal id only; and with distinct ids the `k`-th matched sub-event in
traversal order holds linear id `k + 1`, so the ids are exactly
`1..matchCount` in increasing order. -/
theorem init_linear_ids (version : Nat) (ctx : ICaptureContext)
    (hnames : eventNames ctx.pipelineType version ≠ []) (hr : InRange ctx version) :
    ∃ idx, init version ctx = some idx ∧
      idx.m_RGP2Event =
        0 :: matchedIds (eventNames ctx.pipelineType version) ctx.chunks ctx.CurDrawcalls ∧
      idx.m_RGP2Event.length =
        1 + (matchedIds (eventNames ctx.pipelineType version) ctx.chunks
          ctx.CurDrawcalls).length ∧
      (∀ (e : Nat) (ev : RGPInteropEvent), idx.m_Event2RGP[e]? = some ev →
        ev.rgplinearid ≠ 0 →
          1 ≤ ev.rgplinearid ∧
          ev.rgplinearid ≤ (matchedIds (eventNames ctx.pipelineType version) ctx.chunks
            ctx.CurDrawcalls).length ∧
          (matchedIds (eventNames ctx.pipelineType version) ctx.chunks
            ctx.CurDrawcalls)[ev.rgplinearid - 1]? = some e) ∧
      (∀ (e₁ e₂ : Nat) (ev₁ ev₂ : RGPInteropEvent), idx.m_Event2RGP[e₁]? = some ev₁ →
        idx.m_Event2RGP[e₂]? = some ev₂ → ev₁.rgplinearid ≠ 0 →
        ev₁.rgplinearid = ev₂.rgplinearid → e₁ = e₂) ∧
      (DistinctIds ctx version →
        ∀ k (hk : k < (matchedIds (eventNames ctx.pipelineType version) ctx.chunks
            ctx.CurDrawcalls).length),
          ∃ ev, idx.m_Event2RGP[(matchedIds (eventNames ctx.pipelineType version) ctx.chunks
              ctx.CurDrawcalls)[k]]? = some ev ∧ ev.rgplinearid = k + 1) := by
  obtain ⟨last, idx, _, hinit, _, hrev, _, _, _, hrof, _⟩ := init_built version ctx hnames hr
  refine ⟨idx, hinit, hrev, by rw [hrev]; simp [Nat.add_comm], ?_, ?_, ?_⟩
  · intro e ev hev hnz
    have h := hrof e ev hev hnz
    rw [hrev] at h
    obtain ⟨k, hk⟩ : ∃ k, ev.rgplinearid = k + 1 := ⟨ev.rgplinearid - 1, by omega⟩
    rw [hk, List.getElem?_cons_succ] at h
    have hlt : k < (matchedIds (eventNames ctx.pipelineType version) ctx.chunks
        ctx.CurDrawcalls).length := by
      by_contra hge
      rw [List.getElem?_eq_none (by omega)] at h
      cases h
    refine ⟨by omega, by omega, ?_⟩
    rw [hk, Nat.add_sub_cancel]; exact h
  · intro e₁ e₂ ev₁ ev₂ h₁ h₂ hnz heq
    have a := hrof e₁ ev₁ h₁ hnz
    have b := hrof e₂ ev₂ h₂ (by rw [← heq]; exact hnz)
    rw [heq, b] at a
    exact (Option.some.inj a).symm
  · intro hd k hk
    have hlen : (matchedIds (eventNames ctx.pipelineType version) ctx.chunks
        ctx.CurDrawcalls).length = (matchedEvents (eventNames ctx.pipelineType version)
        ctx.chunks ctx.CurDrawcalls).length := by simp [matchedIds]
    have hass := init_assigned version ctx hnames hr hd idx hinit k (by omega)
    have hid : (matchedIds (eventNames ctx.pipelineType version) ctx.chunks
        ctx.CurDrawcalls)[k] = ((matchedEvents (eventNames ctx.pipelineType version)
        ctx.chunks ctx.CurDrawcalls)[k]).2.eventId := by
      simp [matchedIds]
    rw [hid]; exact ⟨_, hass, rfl⟩

/-- C3 on the scenario catalog. -/
theorem init_linear_ids_witness :
    ∃ idx, init 1 scenarioCtx = some idx ∧ idx.m_RGP2Event = [0, 5] ∧
      idx.m_RGP2Event.length = 2 := by
  obtain ⟨idx, h, hrev, hlen, _⟩ := init_linear_ids 1 scenarioCtx (by decide) (by decide)
  exact ⟨idx, h, hrev, hlen⟩

/-! ## Display names, validity and the inactive case -/

theorem mem_matchedEvents (names : List QString) (chunks : List SDChunk)
    (draws : List DrawcallDescription) (d : DrawcallDescription) (ev : APIEvent)
    (hd : d ∈ preorder draws) (hev : ev ∈ d.events) (hm : isMatch names chunks ev = true) :
    (d, ev) ∈ matchedEvents names chunks draws := by
  unfold matchedEvents
  rw [List.mem_flatMap]
  exact ⟨d, hd, List.mem_map.mpr ⟨ev, List.mem_filter.mpr ⟨hev, hm⟩, rfl⟩⟩

/-- C14: in a constructed index (non-empty name set, catalog in range, distinct
ids), the entry of every matched sub-event `ev` of every draw `d` of the catalog
carries the draw's name when `ev.eventId == d.eventId` and the sub-event's own
chunk name otherwise; and the catalog of one draw with internal id 5 and name
`DrawIndexed` whose own sub-event matches gives `forward(5) == 1`,
`reverse(1) == 5` and display name `DrawIndexed`. -/
theorem init_display_name :
    (∀ (version : Nat) (ctx : ICaptureContext),
      eventNames ctx.pipelineType version ≠ [] → InRange ctx version →
      DistinctIds ctx version →
      ∃ idx, init version ctx = some idx ∧
        ∀ d ∈ preorder ctx.CurDrawcalls, ∀ ev ∈ d.events,
          isMatch (eventNames ctx.pipelineType version) ctx.chunks ev = true →
          ∃ entry chunk, idx.m_Event2RGP[ev.eventId]? = some entry ∧
            ctx.chunks[ev.chunkIndex]? = some chunk ∧
            entry.eventname = if ev.eventId = d.eventId then d.name else chunk.name) ∧
    (∃ idx, init 1 scenarioCtx = some idx ∧
      idx.m_Event2RGP[5]? =
        some { rgplinearid := 1, cmdbufid := 0, eventname := lit "DrawIndexed" } ∧
      idx.m_RGP2Event[1]? = some 5) := by
  refine ⟨?_, scenarioIndex, by decide, by decide, by decide⟩
  intro version ctx hnames hr hd
  obtain ⟨last, idx, _, hinit, _, _, _, _, _, _, _⟩ := init_built version ctx hnames hr
  refine ⟨idx, hinit, ?_⟩
  intro d hdm ev hev hm
  have hmem := mem_matchedEvents _ _ _ d ev hdm hev hm
  obtain ⟨k, hk, hget⟩ := List.getElem_of_mem hmem
  have hass := init_assigned version ctx hnames hr hd idx hinit k hk
  rw [hget] at hass
  simp only at hass
  have hchunk : ∃ chunk, ctx.chunks[ev.chunkIndex]? = some chunk ∧
      chunkName ctx.chunks ev = some chunk.name := by
    unfold isMatch at hm
    unfold chunkName at hm ⊢
    by_cases h0 : ev.chunkIndex = 0
    · simp [h0] at hm
    · cases hc : ctx.chunks[ev.chunkIndex]? with
      | none => simp [h0, hc] at hm
      | some chunk => exact ⟨chunk, rfl, by simp [h0]⟩
  obtain ⟨chunk, hc1, hc2⟩ := hchunk
  refine ⟨_, chunk, hass, hc1, ?_⟩
  simp only [displayName, hc2, Option.getD_some]

/-- C14 on the scenario catalog. -/
theorem init_display_name_witness :
    ∃ idx, init 1 scenarioCtx = some idx ∧
      ∀ d ∈ preorder scenarioCtx.CurDrawcalls, ∀ ev ∈ d.events,
        isMatch (eventNames scenarioCtx.pipelineType 1) scenarioCtx.chunks ev = true →
        ∃ entry chunk, idx.m_Event2RGP[ev.eventId]? = some entry ∧
          scenarioCtx.chunks[ev.chunkIndex]? = some chunk ∧
          entry.eventname = if ev.eventId = d.eventId then d.name else chunk.name :=
  init_display_name.1 1 scenarioCtx (by decide) (by decide) (by decide)

theorem eventNames_ne_nil (api : GraphicsAPI) (version : Nat) :
    eventNames api version ≠ [] ↔ (api = .Vulkan ∨ api = .D3D12) ∧ version = 1 := by
  unfold eventNames
  cases api <;> by_cases hv : version = 1 <;> simp [hv]

/-- C8 fails as stated: with an empty name set both arrays stay empty, so the
lookups of `SelectEvent` and `EventSelected` index outside them instead of
yielding 0. -/
theorem inactive_lookup_out_of_range :
    ∃ idx, init 1 inactiveCtx = some idx ∧ idx.Valid = false ∧
      SelectEvent idx 5 = none ∧ SelectEvent idx 0 = none ∧
      EventSelected idx inactiveCtx { rgplinearid := 1 } = none ∧
      EventSelected idx inactiveCtx { rgplinearid := 0 } = none :=
  ⟨{ m_Version := 1 }, by decide, by decide, by decide, by decide, by decide, by decide⟩

/-- C8 as amended: if the operation name set is empty (an API that is neither
Vulkan nor D3D12, or a version other than 1), the constructor returns without
a traversal, `Valid()` is false and both indices are empty, without even the
entry for linear id 0. -/
theorem inactive_index_empty (version : Nat) (ctx : ICaptureContext)
    (h : ¬ ((ctx.pipelineType = .Vulkan ∨ ctx.pipelineType = .D3D12) ∧ version = 1)) :
    eventNames ctx.pipelineType version = [] ∧
    ∃ idx, init version ctx = some idx ∧ idx.Valid = false ∧
      idx.m_Event2RGP = [] ∧ idx.m_RGP2Event = [] := by
  have hnames : eventNames ctx.pipelineType version = [] := by
    by_contra hne
    exact h ((eventNames_ne_nil _ _).mp hne)
  refine ⟨hnames, { m_Version := version, m_EventNames := [] }, ?_, rfl, rfl, rfl⟩
  simp [init, hnames]

/-- C8 as amended, on the scenario catalog replayed on D3D11. -/
theorem inactive_index_empty_witness :
    eventNames inactiveCtx.pipelineType 1 = [] ∧
    ∃ idx, init 1 inactiveCtx = some idx ∧ idx.Valid = false ∧
      idx.m_Event2RGP = [] ∧ idx.m_RGP2Event = [] :=
  inactive_index_empty 1 inactiveCtx (by decide)

/-! ## Qt string functions -/

theorem split_ne_nil (sep : Char) (s : QString) : split sep s ≠ [] := by
  induction s with
  | nil => simp [split]
  | cons c cs ih =>
    unfold split
    by_cases h : c = sep
    · simp [h]
    · simp only [h, if_false]
      cases hs : split sep cs with
      | nil => simp
      | cons l ls => simp

theorem split_of_not_mem (sep : Char) (s : QString) (h : sep ∉ s) : split sep s = [s] := by
  induction s with
  | nil => rfl
  | cons c cs ih =>
    simp only [List.mem_cons, not_or] at h
    unfold split
    rw [if_neg (fun hc => h.1 hc.symm), ih h.2]

theorem split_append_sep (sep : Char) (a b : QString) (h : sep ∉ a) :
    split sep (a ++ sep :: b) = a :: split sep b := by
  induction a with
  | nil => simp [split]
  | cons c cs ih =>
    simp only [List.mem_cons, not_or] at h
    simp only [List.cons_append]
    rw [split, if_neg (fun hc => h.1 hc.symm), ih h.2]

theorem not_mem_takeWhile_ne (c : Char) (s : QString) : c ∉ s.takeWhile (· != c) := by
  intro h
  have := List.mem_takeWhile_imp h
  simp at this

theorem takeWhile_append_dropWhile_of_mem (c : Char) (s : QString) (h : c ∈ s) :
    s = s.takeWhile (· != c) ++ c :: (s.dropWhile (· != c)).drop 1 := by
  induction s with
  | nil => simp at h
  | cons x xs ih =>
    by_cases hx : x = c
    · subst hx; simp
    · have hm : c ∈ xs := by
        rcases List.mem_cons.mp h with h1 | h1
        · exact absurd h1.symm hx
        · exact h1
      have e1 : (x :: xs).takeWhile (· != c) = x :: xs.takeWhile (· != c) := by
        simp [List.takeWhile_cons, hx]
      have e2 : (x :: xs).dropWhile (· != c) = xs.dropWhile (· != c) := by
        simp [List.dropWhile_cons, hx]
      rw [e1, e2]
      simp only [List.cons_append, List.cons.injEq, true_and]
      exact ih hm

theorem split_second (s : QString) (h : '=' ∈ s) :
    (split '=' s)[1]? = some (nameField s) := by
  have hs := takeWhile_append_dropWhile_of_mem '=' s h
  have h1 : split '=' s = beforeEq s :: split '=' (afterEq s) := by
    conv_lhs => rw [hs]
    exact split_append_sep '=' _ _ (not_mem_takeWhile_ne '=' s)
  rw [h1, List.getElem?_cons_succ]
  by_cases h2 : '=' ∈ afterEq s
  · have hs2 := takeWhile_append_dropWhile_of_mem '=' (afterEq s) h2
    have : split '=' (afterEq s) = beforeEq (afterEq s) :: split '=' (afterEq (afterEq s)) := by
      conv_lhs => rw [hs2]
      exact split_append_sep '=' _ _ (not_mem_takeWhile_ne '=' _)
    rw [this]; simp [nameField]
  · rw [split_of_not_mem _ _ h2]
    simp only [List.getElem?_cons_zero, nameField, beforeEq]
    congr 1
    symm
    rw [List.takeWhile_eq_self_iff]
    intro x hx
    have : x ≠ '=' := fun hxe => h2 (hxe ▸ hx)
    simp [this]

theorem indexOf_nonneg_or (s pat : QString) : indexOf s pat = -1 ∨ 0 ≤ indexOf s pat := by
  induction s with
  | nil => unfold indexOf; by_cases h : pat.isEmpty = true <;> simp [h]
  | cons c cs ih =>
    unfold indexOf
    by_cases h : pat.isPrefixOf (c :: cs) = true
    · simp [h]
    · simp only [h, Bool.false_eq_true, if_false]
      by_cases hr : indexOf cs pat < 0
      · simp [hr]
      · simp only [hr, if_false]; right; omega

theorem indexOf_eq_zero (s pat : QString) : indexOf s pat = 0 ↔ pat.isPrefixOf s = true := by
  cases s with
  | nil =>
    unfold indexOf
    cases pat with
    | nil => simp
    | cons p ps => simp [List.isPrefixOf]
  | cons c cs =>
    unfold indexOf
    by_cases h : pat.isPrefixOf (c :: cs) = true
    · simp [h]
    · simp only [h, Bool.false_eq_true, if_false, iff_false]
      by_cases hr : indexOf cs pat < 0
      · simp [hr]
      · simp only [hr, if_false]; omega

theorem indexOfChar_of_not_mem (c : Char) (s : QString) (h : c ∉ s) : indexOfChar s c = -1 := by
  induction s with
  | nil => rfl
  | cons x xs ih =>
    simp only [List.mem_cons, not_or] at h
    unfold indexOfChar
    rw [if_neg (fun hx => h.1 hx.symm), ih h.2]
    simp

theorem indexOfChar_of_mem (c : Char) (s : QString) (h : c ∈ s) :
    indexOfChar s c = ((s.takeWhile (· != c)).length : Int) := by
  induction s with
  | nil => simp at h
  | cons x xs ih =>
    unfold indexOfChar
    by_cases hx : x = c
    · subst hx; simp
    · have hm : c ∈ xs := by
        rcases List.mem_cons.mp h with h1 | h1
        · exact absurd h1.symm hx
        · exact h1
      have e1 : (x :: xs).takeWhile (· != c) = x :: xs.takeWhile (· != c) := by
        simp [List.takeWhile_cons, hx]
      rw [if_neg hx, ih hm, e1]
      simp only [List.length_cons, Nat.cast_add, Nat.cast_one]
      rw [if_neg (by omega)]

theorem take_length_takeWhile (p : Char → Bool) (s : QString) :
    s.take (s.takeWhile p).length = s.takeWhile p := by
  induction s with
  | nil => rfl
  | cons x xs ih =>
    by_cases hx : p x = true
    · rw [List.takeWhile_cons_of_pos hx]; simp [ih]
    · rw [List.takeWhile_cons_of_neg hx]; simp

theorem drop_length_takeWhile (p : Char → Bool) (s : QString) :
    s.drop (s.takeWhile p).length = s.dropWhile p := by
  induction s with
  | nil => rfl
  | cons x xs ih =>
    by_cases hx : p x = true
    · rw [List.takeWhile_cons_of_pos hx, List.dropWhile_cons_of_pos hx]; simp [ih]
    · rw [List.takeWhile_cons_of_neg hx, List.dropWhile_cons_of_neg hx]; simp

/-! ## Malformed blocks -/

theorem head?_eq_headD {α : Type} (l : List α) (d : α) (h : l ≠ []) :
    l.head? = some (l.headD d) := by
  cases l with
  | nil => exact absurd rfl h
  | cons a t => rfl

theorem getLast?_eq_getLastD {α : Type} (l : List α) (d : α) (h : l ≠ []) :
    l.getLast? = some (l.getLastD d) := by
  rw [List.getLastD_eq_getLast?, List.getLast?_eq_getLast l h]
  rfl

theorem mem_of_startsWith (c : Char) (s pre : QString) (h : startsWith s pre = true)
    (hc : c ∈ pre) : c ∈ s := by
  unfold startsWith at h
  obtain ⟨t, rfl⟩ := List.isPrefixOf_iff_prefix.mp h
  exact List.mem_append_left _ hc

theorem header_of (text first last : QString)
    (hf : (split '\n' text).head? = some first) (hl : (split '\n' text).getLast? = some last) :
    DecodeCommand.header text =
      if startsWith first (lit "command=") = false ∨
          startsWith last (lit "endcommand=") = false then
        some (.inl .malformedCommand)
      else if nameField last ≠ nameField first then some (.inl .commandMismatch)
      else some (.inr (nameField first, ((split '\n' text).drop 1).dropLast)) := by
  unfold DecodeCommand.header
  simp only [hf, hl]
  by_cases h1 : startsWith first (lit "command=") = true
  · by_cases h2 : startsWith last (lit "endcommand=") = true
    · have i1 := (indexOf_eq_zero _ _).mpr h1
      have i2 := (indexOf_eq_zero _ _).mpr h2
      have m1 := mem_of_startsWith '=' _ _ h1 (by decide)
      have m2 := mem_of_startsWith '=' _ _ h2 (by decide)
      simp only [i1, i2, h1, h2, ne_eq, not_true_eq_false, or_self, if_false,
        split_second _ m1, split_second _ m2, Bool.true_eq_false]
    · have i2 : indexOf last (lit "endcommand=") ≠ 0 :=
        fun h => h2 ((indexOf_eq_zero _ _).mp h)
      have h2' : startsWith last (lit "endcommand=") = false := by simpa using h2
      rw [if_pos (Or.inr i2), if_pos (Or.inr h2')]
  · have i1 : indexOf first (lit "command=") ≠ 0 :=
      fun h => h1 ((indexOf_eq_zero _ _).mp h)
    have h1' : startsWith first (lit "command=") = false := by simpa using h1
    rw [if_pos (Or.inl i1), if_pos (Or.inl h1')]

/-- The first part of `DecodeCommand` in terms of the first and the last
line. -/
theorem header_eq (text : QString) :
    DecodeCommand.header text =
      if startsWith ((split '\n' text).headD []) (lit "command=") = false ∨
          startsWith ((split '\n' text).getLastD []) (lit "endcommand=") = false then
        some (.inl .malformedCommand)
      else if nameField ((split '\n' text).getLastD []) ≠
          nameField ((split '\n' text).headD []) then
        some (.inl .commandMismatch)
      else
        some (.inr (nameField ((split '\n' text).headD []),
          ((split '\n' text).drop 1).dropLast)) :=
  header_of text _ _ (head?_eq_headD _ [] (split_ne_nil '\n' text))
    (getLast?_eq_getLastD _ [] (split_ne_nil '\n' text))

theorem not_both_prefixes (x : QString) (h : startsWith x (lit "command=") = true) :
    startsWith x (lit "endcommand=") = false := by
  cases x with
  | nil => simp [startsWith, lit, List.isPrefixOf] at h
  | cons a t =>
    have ha : a = 'c' := by
      simp only [startsWith, lit, String.toList, List.isPrefixOf, Bool.and_eq_true,
        beq_iff_eq] at h
      exact h.1.symm
    subst ha
    simp [startsWith, lit, List.isPrefixOf]

/-- C5: `DecodeCommand` returns false, having only printed the malformed-command
warning (no `EventSelected`, no `SetEventID`), whenever the text split on
newline has fewer than 2 lines, or its first line does not start with
`command=`, or its last line does not start with `endcommand=`. -/
theorem decode_malformed (self : RGPInterop) (ctx : ICaptureContext) (text : QString)
    (h : (split '\n' text).length < 2 ∨
      startsWith ((split '\n' text).headD []) (lit "command=") = false ∨
      startsWith ((split '\n' text).getLastD []) (lit "endcommand=") = false) :
    DecodeCommand self ctx text = some (false, [.warning .malformedCommand]) ∧
    HackProcessInput self ctx text = some (false, [.warning .malformedCommand]) ∧
    setEventCalls [.warning .malformedCommand] = [] := by
  have hbad : startsWith ((split '\n' text).headD []) (lit "command=") = false ∨
      startsWith ((split '\n' text).getLastD []) (lit "endcommand=") = false := by
    rcases h with h | h
    · have hne := split_ne_nil '\n' text
      cases hs : split '\n' text with
      | nil => exact absurd hs hne
      | cons a t =>
        rw [hs] at h
        cases t with
        | nil =>
          show startsWith a (lit "command=") = false ∨ startsWith a (lit "endcommand=") = false
          by_cases hc : startsWith a (lit "command=") = true
          · right; exact not_both_prefixes a hc
          · left; simpa using hc
        | cons b u => simp only [List.length_cons] at h; omega
    · exact h
  have hd : DecodeCommand self ctx text = some (false, [.warning .malformedCommand]) := by
    unfold DecodeCommand
    rw [header_eq, if_pos hbad]
  exact ⟨hd, hd, rfl⟩

/-- C5 on a text without the `endcommand=` line. -/
theorem decode_malformed_witness :
    DecodeCommand scenarioIndex scenarioCtx (lit "command=set_event\nset_event.rgplinearid=1") =
      some (false, [.warning .malformedCommand]) ∧
    HackProcessInput scenarioIndex scenarioCtx
        (lit "command=set_event\nset_event.rgplinearid=1") =
      some (false, [.warning .malformedCommand]) ∧
    setEventCalls [.warning .malformedCommand] = [] :=
  decode_malformed scenarioIndex scenarioCtx (lit "command=set_event\nset_event.rgplinearid=1")
    (by decide)

/-- C6 fails as stated: the first line starts with `command=`, the last with
`endcommand=` and the texts after their first `=` differ (`set_event=x` and
`set_event=y`), yet `DecodeCommand` returns true after calling
`EventSelected`. -/
theorem decode_mismatch_after_second_eq :
    startsWith ((split '\n' mismatchText).headD []) (lit "command=") = true ∧
    startsWith ((split '\n' mismatchText).getLastD []) (lit "endcommand=") = true ∧
    afterEq ((split '\n' mismatchText).headD []) ≠
      afterEq ((split '\n' mismatchText).getLastD []) ∧
    DecodeCommand scenarioIndex scenarioCtx mismatchText =
      some (true, [.warning (.unknownEvent {})]) := by
  refine ⟨by decide, by decide, by decide, by decide⟩

/-- C6 as amended: when the first line starts with `command=` and the last with
`endcommand=`, `DecodeCommand` returns false, having only printed the mismatch
warning, whenever the text between the first `=` and the next `=` (or the end
of the line) of the first line differs from that of the last line. -/
theorem decode_name_mismatch (self : RGPInterop) (ctx : ICaptureContext) (text : QString)
    (h1 : startsWith ((split '\n' text).headD []) (lit "command=") = true)
    (h2 : startsWith ((split '\n' text).getLastD []) (lit "endcommand=") = true)
    (hne : nameField ((split '\n' text).headD []) ≠ nameField ((split '\n' text).getLastD [])) :
    DecodeCommand self ctx text = some (false, [.warning .commandMismatch]) := by
  unfold DecodeCommand
  have hgood : ¬ (startsWith ((split '\n' text).headD []) (lit "command=") = false ∨
      startsWith ((split '\n' text).getLastD []) (lit "endcommand=") = false) := by
    rw [h1, h2]; simp
  rw [header_eq, if_neg hgood, if_pos (fun h => hne h.symm)]

/-- C6 as amended, on a block that ends with another command's name. -/
theorem decode_name_mismatch_witness :
    DecodeCommand scenarioIndex scenarioCtx
        (lit "command=set_event\nset_event.rgplinearid=1\nendcommand=otherName") =
      some (false, [.warning .commandMismatch]) :=
  decode_name_mismatch scenarioIndex scenarioCtx
    (lit "command=set_event\nset_event.rgplinearid=1\nendcommand=otherName")
    (by decide) (by decide) (by decide)

theorem setEventCalls_append (a b : List Effect) :
    setEventCalls (a ++ b) = setEventCalls a ++ setEventCalls b := by
  induction a with
  | nil => rfl
  | cons e t ih => cases e <;> simp [setEventCalls, ih]

theorem warnings_append (a b : List Effect) : warnings (a ++ b) = warnings a ++ warnings b := by
  induction a with
  | nil => rfl
  | cons e t ih => cases e <;> simp [warnings, ih]

theorem params_only_warnings (N : QString) (lines : List QString) :
    ∀ e ∈ (DecodeCommand.params N lines).2, ∃ w, e = .warning w := by
  induction lines with
  | nil => intro e he; simp [DecodeCommand.params] at he
  | cons l rest ih =>
    intro e he
    unfold DecodeCommand.params at he
    simp only at he
    split at he
    · rcases List.mem_cons.mp he with h | h
      · exact ⟨_, h⟩
      · exact ih e h
    · split at he
      · rcases List.mem_cons.mp he with h | h
        · exact ⟨_, h⟩
        · exact ih e h
      · exact ih e he

theorem fromParams_only_warnings (version : Nat) :
    ∀ (ps : QVariantList) (ev : RGPInteropEvent),
      ∀ e ∈ (RGPInteropEvent.fromParams ev version ps).2, ∃ w, e = .warning w
  | [], ev => by intro e he; simp [RGPInteropEvent.fromParams] at he
  | [_], ev => by intro e he; simp [RGPInteropEvent.fromParams] at he
  | k :: v :: rest, ev => by
    intro e he
    unfold RGPInteropEvent.fromParams at he
    simp only at he
    split at he
    · exact fromParams_only_warnings version rest _ e he
    · split at he
      · exact fromParams_only_warnings version rest _ e he
      · split at he
        · exact fromParams_only_warnings version rest _ e he
        · rcases List.mem_cons.mp he with h | h
          · exact ⟨_, h⟩
          · exact fromParams_only_warnings version rest _ e h

theorem setEventCalls_of_warnings (l : List Effect) (h : ∀ e ∈ l, ∃ w, e = .warning w) :
    setEventCalls l = [] := by
  induction l with
  | nil => rfl
  | cons e t ih =>
    obtain ⟨w, rfl⟩ := h e (List.mem_cons_self _ _)
    simp only [setEventCalls]
    exact ih (fun x hx => h x (List.mem_cons_of_mem _ hx))

/-! ## The parameter lines -/

theorem params_cons (N line : QString) (rest : List QString) :
    DecodeCommand.params N (line :: rest) =
      match lineParam N line with
      | some p => (.str p.1 :: .str p.2 :: (DecodeCommand.params N rest).1,
          (DecodeCommand.params N rest).2)
      | none =>
        ((DecodeCommand.params N rest).1,
          (if '=' ∈ line then Effect.warning (.malformedParamKey N (beforeEq line))
           else Effect.warning (.malformedParam line)) :: (DecodeCommand.params N rest).2) := by
  rw [DecodeCommand.params]
  unfold lineParam
  by_cases hm : '=' ∈ line
  · have hidx := indexOfChar_of_mem '=' line hm
    have hc : line.contains '=' = true := by simpa using hm
    have hnot : ¬ indexOfChar line '=' < 0 := by rw [hidx]; omega
    have hleft : left line (indexOfChar line '=').toNat = beforeEq line := by
      rw [hidx]; exact take_length_takeWhile _ _
    have hmid : mid line ((indexOfChar line '=').toNat + 1) = afterEq line := by
      rw [hidx]
      show line.drop ((line.takeWhile (· != '=')).length + 1) = _
      rw [← List.drop_drop, drop_length_takeWhile]
      rfl
    have hlen : (N ++ lit ".").length = N.length + 1 := by simp [lit]
    simp only [hnot, if_false, hleft, hmid, hc, Bool.true_and, hlen, hm, if_true]
    by_cases hs : startsWith (beforeEq line) (N ++ lit ".") = true
    · simp [hs]
    · have hs' : startsWith (beforeEq line) (N ++ lit ".") = false := by simpa using hs
      simp [hs']
  · have hidx := indexOfChar_of_not_mem '=' line hm
    have hc : line.contains '=' = false := by simpa using hm
    simp [hidx, hc, hm]

/-- C13: the parameter list `DecodeCommand` builds from the interior lines of a
block with command name `N` is, in line order, the pair (key without the
prefix `N.`, text after the first `=`) of each line that contains `=` and whose
text before the first `=` starts with `N.`; the other lines only print a
warning, the decode goes on to the dispatch with that list, and a value may
contain `=`. -/
theorem decode_params_spec (N : QString) (lines : List QString) :
    (DecodeCommand.params N lines).1 = paramList (lines.filterMap (lineParam N)) ∧
    (∀ e ∈ (DecodeCommand.params N lines).2, ∃ w, e = Effect.warning w) ∧
    (∀ (self : RGPInterop) (ctx : ICaptureContext) (text : QString),
      DecodeCommand.header text = some (.inr (N, lines)) →
      DecodeCommand self ctx text =
        (DecodeCommand.dispatch self ctx N (paramList (lines.filterMap (lineParam N)))).map
          fun r => (r.1, (DecodeCommand.params N lines).2 ++ r.2)) ∧
    lineParam (lit "set_event") (lit "set_event.eventname=a=b") =
      some (lit "eventname", lit "a=b") := by
  have h1 : (DecodeCommand.params N lines).1 = paramList (lines.filterMap (lineParam N)) := by
    induction lines with
    | nil => rfl
    | cons line rest ih =>
      rw [params_cons]
      cases hp : lineParam N line with
      | none => simp only [List.filterMap_cons, hp]; exact ih
      | some p => simp only [List.filterMap_cons, hp, paramList, List.flatMap_cons] at ih ⊢; rw [ih]; rfl
  refine ⟨h1, params_only_warnings N lines, ?_, by decide⟩
  intro self ctx text hh
  unfold DecodeCommand
  rw [hh]
  simp only
  rw [h1]
  cases DecodeCommand.dispatch self ctx N (paramList (lines.filterMap (lineParam N))) with
  | none => rfl
  | some r => rfl

/-- C13 on a block with a line without `=`, a line of another command and a
value that contains `=`. -/
theorem decode_params_spec_witness :
    DecodeCommand scenarioIndex scenarioCtx
        (lit "command=x\nnoise\ny.k=v\nx.key=a=b\nendcommand=x") =
      (DecodeCommand.dispatch scenarioIndex scenarioCtx (lit "x")
        (paramList ([lit "noise", lit "y.k=v", lit "x.key=a=b"].filterMap
          (lineParam (lit "x"))))).map
        fun r => (r.1, (DecodeCommand.params (lit "x")
          [lit "noise", lit "y.k=v", lit "x.key=a=b"]).2 ++ r.2) :=
  (decode_params_spec (lit "x") [lit "noise", lit "y.k=v", lit "x.key=a=b"]).2.2.1
    scenarioIndex scenarioCtx (lit "command=x\nnoise\ny.k=v\nx.key=a=b\nendcommand=x")
    (by decide)

/-! ## Dispatch -/

theorem eventSelected_resolved (self : RGPInterop) (ctx : ICaptureContext)
    (ev : RGPInteropEvent) (e : Nat) (h : self.m_RGP2Event[ev.rgplinearid]? = some e)
    (he : e ≠ 0) :
    ∃ mismatch, EventSelected self ctx ev = some (mismatch ++ [.SetEventID e e]) ∧
      setEventCalls mismatch = [] ∧
      (∀ d, ctx.GetDrawcall e = some d → d.name ≠ ev.eventname →
        mismatch = [.warning (.nameMismatch ev.eventname d.name)]) ∧
      (∀ d, ctx.GetDrawcall e = some d → d.name = ev.eventname → mismatch = []) := by
  unfold EventSelected
  simp only [h, he, if_false]
  cases hd : ctx.GetDrawcall e with
  | none =>
    refine ⟨[], rfl, rfl, ?_, ?_⟩
    · intro d h1; cases h1
    · intro d h1; cases h1
  | some d =>
    by_cases hn : d.name = ev.eventname
    · refine ⟨[], by simp [hn], rfl, ?_, ?_⟩
      · intro d' hd' hne; cases hd'; exact absurd hn hne
      · intro _ _ _; rfl
    · refine ⟨[.warning (.nameMismatch ev.eventname d.name)], by simp [hn], rfl, ?_, ?_⟩
      · intro d' hd' _; cases hd'; rfl
      · intro d' hd' heq; cases hd'; exact absurd heq hn

theorem decode_of_header (self : RGPInterop) (ctx : ICaptureContext) (text N : QString)
    (lines : List QString) (hh : DecodeCommand.header text = some (.inr (N, lines))) :
    DecodeCommand self ctx text =
      (DecodeCommand.dispatch self ctx N (DecodeCommand.params N lines).1).map
        fun r => (r.1, (DecodeCommand.params N lines).2 ++ r.2) := by
  unfold DecodeCommand
  rw [hh]
  simp only
  cases DecodeCommand.dispatch self ctx N (DecodeCommand.params N lines).1 with
  | none => rfl
  | some r => rfl

theorem dispatch_set_event (self : RGPInterop) (ctx : ICaptureContext) (ps : QVariantList) :
    DecodeCommand.dispatch self ctx (ToQStr .SetEvent) ps =
      (EventSelected self ctx (RGPInteropEvent.fromParams {} self.m_Version ps).1).map
        fun effects => (true, (RGPInteropEvent.fromParams {} self.m_Version ps).2 ++ effects) := by
  unfold DecodeCommand.dispatch
  simp only [if_true]
  cases EventSelected self ctx (RGPInteropEvent.fromParams {} self.m_Version ps).1 with
  | none => rfl
  | some r => rfl

theorem dispatch_other (self : RGPInterop) (ctx : ICaptureContext) (N : QString)
    (ps : QVariantList) (hN : N ≠ ToQStr .SetEvent) :
    DecodeCommand.dispatch self ctx N ps =
      some (false, [.warning (.unrecognisedCommand N)]) := by
  unfold DecodeCommand.dispatch
  rw [if_neg hN]

set_option maxRecDepth 100000 in
/-- C10 fails as stated: a set_event block whose linear id 0 resolves to no
internal event makes `DecodeCommand` and `HackProcessInput` return true
although `SetEventID` was not called. -/
theorem decode_true_without_update :
    DecodeCommand scenarioIndex scenarioCtx unresolvedText =
      some (true, [.warning (.unknownEvent {})]) ∧
    HackProcessInput scenarioIndex scenarioCtx unresolvedText =
      some (true, [.warning (.unknownEvent {})]) ∧
    setEventCalls [.warning (.unknownEvent {})] = [] := by
  refine ⟨by decide, by decide, by decide⟩

/-- C10 as amended: `HackProcessInput` is `DecodeCommand`, and whenever
`DecodeCommand` returns, it returns true exactly when the text passed the
begin/end checks with the command name `set_event`; a returned false comes
without any `SetEventID`; a block with any other command name returns false
after the warnings of its lines and the unrecognised-command warning, with no
dispatch; a set_event block returns true whenever the lookup of
`EventSelected` is inside the reverse index; its result is that of
`EventSelected` on the decoded event, after the warnings of the lines and of
`fromParams`; and it is true both when the entry found is 0 (the unknown-event
warning, no `SetEventID`) and when it is an internal id `e` (one
`SetEventID(e, e)`). -/
theorem decode_success_iff (self : RGPInterop) (ctx : ICaptureContext) (text : QString) :
    HackProcessInput self ctx text = DecodeCommand self ctx text ∧
    (∀ ok effects, DecodeCommand self ctx text = some (ok, effects) →
      (ok = true ↔
        ∃ lines, DecodeCommand.header text = some (.inr (ToQStr .SetEvent, lines))) ∧
      (ok = false → setEventCalls effects = [])) ∧
    (∀ N lines, DecodeCommand.header text = some (.inr (N, lines)) → N ≠ ToQStr .SetEvent →
      DecodeCommand self ctx text =
        some (false, (DecodeCommand.params N lines).2 ++
          [.warning (.unrecognisedCommand N)])) ∧
    (∀ lines, DecodeCommand.header text = some (.inr (ToQStr .SetEvent, lines)) →
      (RGPInteropEvent.fromParams {} self.m_Version
          (DecodeCommand.params (ToQStr .SetEvent) lines).1).1.rgplinearid
        < self.m_RGP2Event.length →
      ∃ effects, DecodeCommand self ctx text = some (true, effects)) ∧
    (∀ lines, DecodeCommand.header text = some (.inr (ToQStr .SetEvent, lines)) →
      DecodeCommand self ctx text =
        (EventSelected self ctx (RGPInteropEvent.fromParams {} self.m_Version
            (DecodeCommand.params (ToQStr .SetEvent) lines).1).1).map
          fun effects => (true, (DecodeCommand.params (ToQStr .SetEvent) lines).2 ++
            ((RGPInteropEvent.fromParams {} self.m_Version
              (DecodeCommand.params (ToQStr .SetEvent) lines).1).2 ++ effects))) ∧
    (∀ lines e, DecodeCommand.header text = some (.inr (ToQStr .SetEvent, lines)) →
      self.m_RGP2Event[(RGPInteropEvent.fromParams {} self.m_Version
          (DecodeCommand.params (ToQStr .SetEvent) lines).1).1.rgplinearid]? = some e →
      ∃ effects, DecodeCommand self ctx text = some (true, effects) ∧
        (e = 0 → setEventCalls effects = [] ∧
          Warning.unknownEvent (RGPInteropEvent.fromParams {} self.m_Version
            (DecodeCommand.params (ToQStr .SetEvent) lines).1).1 ∈ warnings effects) ∧
        (e ≠ 0 → setEventCalls effects = [(e, e)])) := by
  have hmap : ∀ lines, DecodeCommand.header text = some (.inr (ToQStr .SetEvent, lines)) →
      DecodeCommand self ctx text =
        (EventSelected self ctx (RGPInteropEvent.fromParams {} self.m_Version
            (DecodeCommand.params (ToQStr .SetEvent) lines).1).1).map
          fun effects => (true, (DecodeCommand.params (ToQStr .SetEvent) lines).2 ++
            ((RGPInteropEvent.fromParams {} self.m_Version
              (DecodeCommand.params (ToQStr .SetEvent) lines).1).2 ++ effects)) := by
    intro lines hh
    rw [decode_of_header self ctx text _ lines hh, dispatch_set_event]
    cases EventSelected self ctx (RGPInteropEvent.fromParams {} self.m_Version
        (DecodeCommand.params (ToQStr .SetEvent) lines).1).1 with
    | none => rfl
    | some effs => rfl
  refine ⟨rfl, ?_, ?_, ?_, hmap, ?_⟩
  · intro ok effects hdec
    cases hh : DecodeCommand.header text with
    | none => simp [DecodeCommand, hh] at hdec
    | some r =>
      cases r with
      | inl w =>
        simp only [DecodeCommand, hh, Option.some.injEq, Prod.mk.injEq] at hdec
        obtain ⟨rfl, rfl⟩ := hdec
        simp [setEventCalls]
      | inr p =>
        obtain ⟨N, lines⟩ := p
        rw [decode_of_header self ctx text N lines hh] at hdec
        by_cases hN : N = ToQStr .SetEvent
        · subst hN
          rw [dispatch_set_event] at hdec
          cases hes : EventSelected self ctx (RGPInteropEvent.fromParams {} self.m_Version
              (DecodeCommand.params (ToQStr .SetEvent) lines).1).1 with
          | none => simp [hes] at hdec
          | some effs =>
            simp only [hes, Option.map_some', Option.some.injEq, Prod.mk.injEq] at hdec
            obtain ⟨rfl, _⟩ := hdec
            exact ⟨⟨fun _ => ⟨lines, rfl⟩, fun _ => rfl⟩, fun h => by cases h⟩
        · rw [dispatch_other self ctx N _ hN] at hdec
          simp only [Option.map_some', Option.some.injEq, Prod.mk.injEq] at hdec
          obtain ⟨rfl, rfl⟩ := hdec
          refine ⟨?_, fun _ => ?_⟩
          · constructor
            · intro h; cases h
            · rintro ⟨lines', hl⟩
              simp only [Option.some.injEq, Sum.inr.injEq, Prod.mk.injEq] at hl
              exact absurd hl.1 hN
          · rw [setEventCalls_append,
              setEventCalls_of_warnings _ (params_only_warnings N lines)]
            rfl
  · intro N lines hh hN
    rw [decode_of_header self ctx text N lines hh, dispatch_other self ctx N _ hN]
    rfl
  · intro lines hh hlt
    rw [decode_of_header self ctx text _ lines hh, dispatch_set_event]
    unfold EventSelected
    rw [List.getElem?_eq_getElem hlt]
    simp only
    split <;> exact ⟨_, rfl⟩
  · intro lines e hh hrev
    rw [hmap lines hh]
    by_cases he : e = 0
    · subst he
      have hsel : EventSelected self ctx (RGPInteropEvent.fromParams {} self.m_Version
          (DecodeCommand.params (ToQStr .SetEvent) lines).1).1 =
          some [.warning (.unknownEvent (RGPInteropEvent.fromParams {} self.m_Version
            (DecodeCommand.params (ToQStr .SetEvent) lines).1).1)] := by
        unfold EventSelected
        rw [hrev]
        rfl
      rw [hsel]
      refine ⟨_, rfl, fun _ => ⟨?_, ?_⟩, fun h => absurd rfl h⟩
      · simp only [setEventCalls_append,
          setEventCalls_of_warnings _ (params_only_warnings _ lines),
          setEventCalls_of_warnings _ (fromParams_only_warnings _ _ _)]
        rfl
      · simp only [warnings_append, List.mem_append]
        right; right
        simp [warnings]
    · obtain ⟨mismatch, hsel, hm0, _, _⟩ := eventSelected_resolved self ctx _ e hrev he
      rw [hsel]
      refine ⟨_, rfl, fun h => absurd h he, fun _ => ?_⟩
      simp only [setEventCalls_append, hm0,
        setEventCalls_of_warnings _ (params_only_warnings _ lines),
        setEventCalls_of_warnings _ (fromParams_only_warnings _ _ _)]
      rfl

set_option maxRecDepth 100000 in
/-- C10 as amended, on blocks whose linear id resolves to no event: the id 0,
and an id past 64 bits, whose conversion fails and gives 0; both return true
with the unknown-event warning and no `SetEventID`. -/
theorem decode_success_iff_witness :
    ((true = true ↔ ∃ lines,
      DecodeCommand.header unresolvedText = some (.inr (ToQStr .SetEvent, lines))) ∧
    (true = false → setEventCalls [Effect.warning (.unknownEvent {})] = [])) ∧
    DecodeCommand scenarioIndex scenarioCtx
        (lit "command=set_event\nset_event.rgplinearid=18446744073709551715\nendcommand=set_event") =
      some (true, [.warning (.unknownEvent {})]) :=
  ⟨(decode_success_iff scenarioIndex scenarioCtx unresolvedText).2.1 true
    [.warning (.unknownEvent {})] (by decide), by decide⟩

/-- C11: for every index and every text that passes the begin/end checks as a
set_event block, if the decoded `rgplinearid` (the value `fromParams` converts
the text to) is `L` and `m_RGP2Event[L]` is
an internal id `e` other than 0, then `DecodeCommand` returns true and calls
`SetEventID` exactly once, with both ids equal to `e`; a draw name that
differs from the block's `eventname` only adds the mismatch warning. -/
theorem decode_set_event (self : RGPInterop) (ctx : ICaptureContext) (text : QString)
    (lines : List QString) (L e : Nat)
    (hh : DecodeCommand.header text = some (.inr (ToQStr .SetEvent, lines)))
    (hL : (RGPInteropEvent.fromParams {} self.m_Version
      (DecodeCommand.params (ToQStr .SetEvent) lines).1).1.rgplinearid = L)
    (hrev : self.m_RGP2Event[L]? = some e) (he : e ≠ 0) :
    ∃ effects, DecodeCommand self ctx text = some (true, effects) ∧
      setEventCalls effects = [(e, e)] ∧
      (∀ d, ctx.GetDrawcall e = some d →
        d.name ≠ (RGPInteropEvent.fromParams {} self.m_Version
          (DecodeCommand.params (ToQStr .SetEvent) lines).1).1.eventname →
        Warning.nameMismatch (RGPInteropEvent.fromParams {} self.m_Version
          (DecodeCommand.params (ToQStr .SetEvent) lines).1).1.eventname d.name
          ∈ warnings effects) := by
  subst hL
  obtain ⟨mismatch, hsel, hm0, hm1, _⟩ := eventSelected_resolved self ctx _ e hrev he
  rw [decode_of_header self ctx text _ lines hh, dispatch_set_event, hsel]
  refine ⟨_, rfl, ?_, ?_⟩
  · simp only [setEventCalls_append, hm0,
      setEventCalls_of_warnings _ (params_only_warnings _ lines),
      setEventCalls_of_warnings _ (fromParams_only_warnings _ _ _)]
    rfl
  · intro d hd hne
    rw [hm1 d hd hne]
    simp only [warnings_append, List.mem_append]
    right; right; left
    simp [warnings]

set_option maxRecDepth 100000 in
/-- C11 on the scenario: the block for linear id 1 is decoded against the
scenario index into one `SetEventID(5, 5)`, and nothing else is printed; the
numeral ` +1 ` converts to 1 as well, and a numeral past 64 bits converts to 0,
which resolves to no event. -/
theorem decode_set_event_witness :
    (∃ effects, DecodeCommand scenarioIndex scenarioCtx scenarioText = some (true, effects) ∧
      setEventCalls effects = [(5, 5)] ∧
      (∀ d, scenarioCtx.GetDrawcall 5 = some d →
        d.name ≠ (RGPInteropEvent.fromParams {} scenarioIndex.m_Version
          (DecodeCommand.params (ToQStr .SetEvent)
            [lit "set_event.rgplinearid=1", lit "set_event.cmdbufid=0",
             lit "set_event.eventname=DrawIndexed"]).1).1.eventname →
        Warning.nameMismatch (RGPInteropEvent.fromParams {} scenarioIndex.m_Version
          (DecodeCommand.params (ToQStr .SetEvent)
            [lit "set_event.rgplinearid=1", lit "set_event.cmdbufid=0",
             lit "set_event.eventname=DrawIndexed"]).1).1.eventname d.name
          ∈ warnings effects)) ∧
    DecodeCommand scenarioIndex scenarioCtx scenarioText = some (true, [.SetEventID 5 5]) ∧
    DecodeCommand scenarioIndex scenarioCtx
        (lit "command=set_event\nset_event.rgplinearid= +1 \nendcommand=set_event") =
      some (true, [.warning (.nameMismatch [] (lit "DrawIndexed")), .SetEventID 5 5]) ∧
    DecodeCommand scenarioIndex scenarioCtx
        (lit "command=set_event\nset_event.rgplinearid=18446744073709551617\nendcommand=set_event") =
      some (true, [.warning (.unknownEvent {})]) :=
  ⟨decode_set_event scenarioIndex scenarioCtx scenarioText
    [lit "set_event.rgplinearid=1", lit "set_event.cmdbufid=0",
     lit "set_event.eventname=DrawIndexed"] 1 5 (by rfl) (by rfl) (by rfl) (by decide),
   by rfl, by decide, by decide⟩

set_option maxRecDepth 100000 in
/-- C7 at the failing input: against the scenario index, whose reverse index
has 2 entries, linear id 99 makes `EventSelected` index `m_RGP2Event` outside
its bounds, so neither it nor `DecodeCommand` has a defined result; every
linear id at or past the end does the same, while an id whose entry is 0 gives
the warning and no `SetEventID`. -/
theorem eventSelected_unmapped_id :
    init 1 scenarioCtx = some scenarioIndex ∧ scenarioIndex.m_RGP2Event.length = 2 ∧
    EventSelected scenarioIndex scenarioCtx
      { rgplinearid := 99, cmdbufid := 0, eventname := lit "DrawIndexed" } = none ∧
    DecodeCommand scenarioIndex scenarioCtx unmappedText = none ∧
    (∀ (self : RGPInterop) (ctx : ICaptureContext) (ev : RGPInteropEvent),
      self.m_RGP2Event.length ≤ ev.rgplinearid → EventSelected self ctx ev = none) ∧
    (∀ (self : RGPInterop) (ctx : ICaptureContext) (ev : RGPInteropEvent),
      self.m_RGP2Event[ev.rgplinearid]? = some 0 →
      EventSelected self ctx ev = some [.warning (.unknownEvent ev)]) := by
  refine ⟨by decide, by decide, by decide, by rfl, ?_, ?_⟩
  · intro self ctx ev h
    unfold EventSelected
    rw [List.getElem?_eq_none h]
  · intro self ctx ev h
    unfold EventSelected
    rw [h]
    rfl

/-! ## The emitted block -/

theorem digitValue_digitChar (d : Nat) (h : d < 10) : digitValue (Nat.digitChar d) = some d := by
  interval_cases d <;> rfl

theorem digitChar_ne_newline (d : Nat) (h : d < 10) : Nat.digitChar d ≠ '\n' := by
  interval_cases d <;> decide

theorem toDigitsCore_spec :
    ∀ (fuel n : Nat) (ds : List Char), n < fuel →
      ∃ pre, Nat.toDigitsCore 10 fuel n ds = pre ++ ds ∧ pre ≠ [] ∧
        (∀ c ∈ pre, ∃ d, d < 10 ∧ c = Nat.digitChar d) ∧
        (∀ acc rest, parseDigits acc (pre ++ rest) =
          parseDigits (acc * 10 ^ pre.length + n) rest) := by
  intro fuel
  induction fuel with
  | zero => intro n ds h; omega
  | succ f ih =>
    intro n ds h
    unfold Nat.toDigitsCore
    simp only
    by_cases h0 : n / 10 = 0
    · rw [if_pos h0]
      refine ⟨[Nat.digitChar (n % 10)], rfl, by simp, ?_, ?_⟩
      · intro c hc
        simp only [List.mem_singleton] at hc
        exact ⟨n % 10, Nat.mod_lt _ (by norm_num), hc⟩
      · intro acc rest
        have hn : n % 10 = n := Nat.mod_eq_of_lt (by omega)
        show parseDigits acc (Nat.digitChar (n % 10) :: rest) = _
        rw [parseDigits, digitValue_digitChar _ (Nat.mod_lt n (by norm_num))]
        simp only [List.length_singleton, pow_one, hn]
    · rw [if_neg h0]
      obtain ⟨pre, hpre, hne, hdig, hparse⟩ :=
        ih (n / 10) (Nat.digitChar (n % 10) :: ds) (by omega)
      refine ⟨pre ++ [Nat.digitChar (n % 10)], by rw [hpre]; simp, by simp, ?_, ?_⟩
      · intro c hc
        rcases List.mem_append.mp hc with h1 | h1
        · exact hdig c h1
        · simp only [List.mem_singleton] at h1
          exact ⟨n % 10, Nat.mod_lt _ (by norm_num), h1⟩
      · intro acc rest
        rw [List.append_assoc, hparse]
        show parseDigits _ (Nat.digitChar (n % 10) :: rest) = _
        rw [parseDigits, digitValue_digitChar _ (Nat.mod_lt n (by norm_num))]
        simp only [List.length_append, List.length_singleton]
        congr 1
        have := Nat.div_add_mod n 10
        rw [pow_succ]
        nlinarith [Nat.div_add_mod n 10]

theorem uintToString_spec (n : Nat) :
    uintToString n ≠ [] ∧ '\n' ∉ uintToString n ∧ parseDigits 0 (uintToString n) = some n := by
  obtain ⟨pre, hpre, hne, hdig, hparse⟩ := toDigitsCore_spec (n + 1) n [] (by omega)
  have he : uintToString n = pre := by
    unfold uintToString Nat.toDigits
    rw [hpre, List.append_nil]
  rw [he]
  refine ⟨hne, ?_, ?_⟩
  · intro hmem
    obtain ⟨d, hd, hc⟩ := hdig _ hmem
    exact digitChar_ne_newline d hd hc.symm
  · have := hparse 0 []
    simp only [List.append_nil, Nat.zero_mul, Nat.zero_add] at this
    rw [this]; rfl

theorem uintToString_digits (n : Nat) :
    ∀ c ∈ uintToString n, ∃ d, d < 10 ∧ c = Nat.digitChar d := by
  obtain ⟨pre, hpre, _, hdig, _⟩ := toDigitsCore_spec (n + 1) n [] (by omega)
  have he : uintToString n = pre := by
    unfold uintToString Nat.toDigits
    rw [hpre, List.append_nil]
  rw [he]
  exact hdig

theorem digitChar_not_space (d : Nat) (h : d < 10) : isSpace (Nat.digitChar d) = false := by
  interval_cases d <;> decide

theorem digitChar_ne_plus (d : Nat) (h : d < 10) : Nat.digitChar d ≠ '+' := by
  interval_cases d <;> decide

theorem dropWhile_of_all_false (p : Char → Bool) (s : QString) (h : ∀ c ∈ s, p c = false) :
    s.dropWhile p = s := by
  cases s with
  | nil => rfl
  | cons a t =>
    have ha := h a (List.mem_cons_self _ _)
    rw [List.dropWhile_cons_of_neg (by simp [ha])]

theorem trimmed_of_no_space (s : QString) (h : ∀ c ∈ s, isSpace c = false) : trimmed s = s := by
  unfold trimmed
  rw [dropWhile_of_all_false _ s h,
    dropWhile_of_all_false _ s.reverse (fun c hc => h c (List.mem_reverse.mp hc)),
    List.reverse_reverse]

theorem toULongLong_uintToString (n : Nat) (h : n < 2 ^ 64) :
    toULongLong (uintToString n) = some n := by
  obtain ⟨hne, _, hp⟩ := uintToString_spec n
  have hdig := uintToString_digits n
  have ht : trimmed (uintToString n) = uintToString n :=
    trimmed_of_no_space _ (fun c hc => by
      obtain ⟨d, hd, rfl⟩ := hdig c hc
      exact digitChar_not_space d hd)
  unfold toULongLong
  simp only [ht]
  cases hs : uintToString n with
  | nil => exact absurd hs hne
  | cons c cs =>
    have hc : c ≠ '+' := by
      obtain ⟨d, hd, rfl⟩ := hdig c (by rw [hs]; exact List.mem_cons_self _ _)
      exact digitChar_ne_plus d hd
    have hm : stripPlus (c :: cs) = c :: cs := by
      unfold stripPlus
      split
      · rename_i rest heq
        exact absurd (List.cons.inj heq).1 hc
      · rfl
    rw [hm, ← hs, hp]
    have h' : n < 18446744073709551616 := h
    simp [hs, h']

theorem toUInt_uintToString (n : Nat) (h : n < 2 ^ 64) :
    toUInt (uintToString n) = n % 2 ^ 32 := by
  unfold toUInt
  rw [toULongLong_uintToString n h]

theorem trimmed_append_newline (s : QString) (c t : Char) (hc : isSpace c = false)
    (ht : isSpace t = false) (hs : s.head? = some c) (hl : s.getLast? = some t) :
    trimmed (s ++ ['\n']) = s := by
  unfold trimmed
  cases s with
  | nil => simp at hs
  | cons a s' =>
    simp only [List.head?_cons, Option.some.injEq] at hs
    subst hs
    have h1 : ((a :: s') ++ ['\n']).dropWhile isSpace = (a :: s') ++ ['\n'] := by
      simp [List.dropWhile_cons, hc]
    rw [h1]
    have h2 : ((a :: s') ++ ['\n']).reverse = '\n' :: (a :: s').reverse := by simp
    rw [h2]
    have h3 : ∃ r, (a :: s').reverse = t :: r := by
      have hh : (a :: s').reverse.head? = some t := by rw [List.head?_reverse]; exact hl
      cases hr : (a :: s').reverse with
      | nil => rw [hr] at hh; simp at hh
      | cons x r =>
        rw [hr] at hh
        simp only [List.head?_cons, Option.some.injEq] at hh
        exact ⟨r, by rw [hh]⟩
    obtain ⟨r, hr⟩ := h3
    have hnl : isSpace '\n' = true := by decide
    rw [List.dropWhile_cons_of_pos hnl, hr, List.dropWhile_cons_of_neg (by simp [ht]), ← hr]
    simp

theorem encode_trimmed (ps : QVariantList) :
    trimmed (EncodeCommand .SetEvent ps) =
      lit "command=set_event\n" ++ EncodeCommand.params (lit "set_event") ps ++
        lit "endcommand=set_event" := by
  have e : EncodeCommand .SetEvent ps =
      (lit "command=set_event\n" ++ EncodeCommand.params (lit "set_event") ps ++
        lit "endcommand=set_event") ++ ['\n'] := by
    simp [EncodeCommand, ToQStr, lit]
  rw [e]
  apply trimmed_append_newline _ 'c' 't' (by decide) (by decide)
  · simp [lit]
  · have e2 : lit "command=set_event\n" ++ EncodeCommand.params (lit "set_event") ps ++
        lit "endcommand=set_event" =
        (lit "command=set_event\n" ++ EncodeCommand.params (lit "set_event") ps ++
          lit "endcommand=set_even") ++ ['t'] := by
      simp [lit]
    rw [e2]
    simp

theorem selectEvent_text (ev : RGPInteropEvent) (version : Nat) (h0 : ev.cmdbufid = 0) :
    trimmed (EncodeCommand .SetEvent (ev.toParams version)) = joinLines (setEventBlock ev) := by
  rw [encode_trimmed]
  have hz : uintToString 0 = ['0'] := by decide
  simp [RGPInteropEvent.toParams, EncodeCommand.params, QVariant.toString, joinLines,
    setEventBlock, h0, hz, lit, List.intercalate]

theorem split_setEventBlock (ev : RGPInteropEvent) (hn : '\n' ∉ ev.eventname) :
    split '\n' (joinLines (setEventBlock ev)) = setEventBlock ev := by
  have hd := (uintToString_spec ev.rgplinearid).2.1
  have e : joinLines (setEventBlock ev) =
      lit "command=set_event" ++ '\n' ::
        ((lit "set_event.rgplinearid=" ++ uintToString ev.rgplinearid) ++ '\n' ::
          (lit "set_event.cmdbufid=0" ++ '\n' ::
            ((lit "set_event.eventname=" ++ ev.eventname) ++ '\n' ::
              lit "endcommand=set_event"))) := by
    simp [joinLines, setEventBlock, lit, List.intercalate]
  rw [e, split_append_sep _ _ _ (by decide),
    split_append_sep _ _ _ (by
      intro h
      rcases List.mem_append.mp h with h | h
      · revert h; decide
      · exact hd h),
    split_append_sep _ _ _ (by decide),
    split_append_sep _ _ _ (by
      intro h
      rcases List.mem_append.mp h with h | h
      · revert h; decide
      · exact hn h),
    split_of_not_mem _ _ (by decide)]
  rfl

/-- C12: in a constructed index, for every internal event id `e` within the
forward index, `SelectEvent(e)` does nothing when `m_Event2RGP[e].rgplinearid`
is 0 and otherwise writes one text: the lines `command=set_event`,
`set_event.rgplinearid=<linear id>`, `set_event.cmdbufid=0`,
`set_event.eventname=<display name>`, `endcommand=set_event` joined by
newlines, which are exactly five lines when the name holds no newline. -/
theorem selectEvent_emits (version : Nat) (ctx : ICaptureContext)
    (hnames : eventNames ctx.pipelineType version ≠ []) (hr : InRange ctx version) :
    ∃ idx, init version ctx = some idx ∧
      ∀ e, e < idx.m_Event2RGP.length →
        ∃ ev, idx.m_Event2RGP[e]? = some ev ∧
          (ev.rgplinearid = 0 → SelectEvent idx e = some []) ∧
          (ev.rgplinearid ≠ 0 →
            SelectEvent idx e = some [.clipboardSetText (joinLines (setEventBlock ev))] ∧
            ('\n' ∉ ev.eventname →
              split '\n' (joinLines (setEventBlock ev)) = setEventBlock ev ∧
              (setEventBlock ev).length = 5)) := by
  obtain ⟨last, idx, _, hinit, _, _, _, _, _, _, hcmd⟩ := init_built version ctx hnames hr
  refine ⟨idx, hinit, ?_⟩
  intro e he
  refine ⟨idx.m_Event2RGP[e], List.getElem?_eq_getElem he, ?_, ?_⟩
  · intro h0
    unfold SelectEvent
    rw [List.getElem?_eq_getElem he]
    simp only [h0, if_true]
  · intro hnz
    refine ⟨?_, fun hn => ⟨split_setEventBlock _ hn, rfl⟩⟩
    unfold SelectEvent
    rw [List.getElem?_eq_getElem he]
    simp only [hnz, if_false]
    rw [selectEvent_text _ _ (hcmd e _ (List.getElem?_eq_getElem he))]

set_option maxRecDepth 100000 in
/-- C12 on the scenario index: selecting event 5 writes the block for linear id
1, and selecting event 0, which has no correspondence, writes nothing. -/
theorem selectEvent_emits_witness :
    (∃ idx, init 1 scenarioCtx = some idx ∧
      ∀ e, e < idx.m_Event2RGP.length →
        ∃ ev, idx.m_Event2RGP[e]? = some ev ∧
          (ev.rgplinearid = 0 → SelectEvent idx e = some []) ∧
          (ev.rgplinearid ≠ 0 →
            SelectEvent idx e = some [.clipboardSetText (joinLines (setEventBlock ev))] ∧
            ('\n' ∉ ev.eventname →
              split '\n' (joinLines (setEventBlock ev)) = setEventBlock ev ∧
              (setEventBlock ev).length = 5))) ∧
    SelectEvent scenarioIndex 5 = some [.clipboardSetText scenarioText] ∧
    SelectEvent scenarioIndex 0 = some [] :=
  ⟨selectEvent_emits 1 scenarioCtx (by decide) (by decide), by decide, by decide⟩

/-! ## Encoding and decoding -/

theorem encode_params_flat (pairs : List (QVariant × QVariant)) (tail : QString) :
    split '\n' (EncodeCommand.params (lit "set_event") (flatPairs pairs) ++ tail) =
      (if ∀ p ∈ pairs, '\n' ∉ paramLine p then pairs.map paramLine ++ split '\n' tail
       else split '\n' (EncodeCommand.params (lit "set_event") (flatPairs pairs) ++ tail)) := by
  by_cases h : ∀ p ∈ pairs, '\n' ∉ paramLine p
  · rw [if_pos h]
    induction pairs with
    | nil => simp [flatPairs, EncodeCommand.params]
    | cons p rest ih =>
      have hp := h p (List.mem_cons_self _ _)
      have hrest : ∀ q ∈ rest, '\n' ∉ paramLine q := fun q hq => h q (List.mem_cons_of_mem _ hq)
      have hf : flatPairs (p :: rest) = p.1 :: p.2 :: flatPairs rest := by
        simp [flatPairs, List.flatMap_cons]
      have e : EncodeCommand.params (lit "set_event") (flatPairs (p :: rest)) ++ tail =
          paramLine p ++ '\n' ::
            (EncodeCommand.params (lit "set_event") (flatPairs rest) ++ tail) := by
        rw [hf, EncodeCommand.params]
        simp [paramLine, lit]
      rw [e, split_append_sep _ _ _ hp, ih hrest]
      rfl
  · rw [if_neg h]

theorem beforeEq_append (a v : QString) (h : '=' ∉ a) : beforeEq (a ++ '=' :: v) = a := by
  unfold beforeEq
  induction a with
  | nil => simp
  | cons x xs ih =>
    simp only [List.mem_cons, not_or] at h
    have hx : x ≠ '=' := fun hx => h.1 hx.symm
    simp [List.takeWhile_cons, hx, ih h.2]

theorem afterEq_append (a v : QString) (h : '=' ∉ a) : afterEq (a ++ '=' :: v) = v := by
  unfold afterEq
  induction a with
  | nil => simp
  | cons x xs ih =>
    simp only [List.mem_cons, not_or] at h
    have hx : x ≠ '=' := fun hx => h.1 hx.symm
    simp only [List.cons_append, List.dropWhile_cons, bne_iff_ne, ne_eq, hx, not_false_eq_true,
      if_true]
    exact ih h.2

theorem lineParam_paramLine (p : QVariant × QVariant) (h : '=' ∉ p.1.toString) :
    lineParam (lit "set_event") (paramLine p) = some (p.1.toString, p.2.toString) := by
  have hne : '=' ∉ lit "set_event" ++ lit "." ++ p.1.toString := by
    intro hm
    rcases List.mem_append.mp hm with h1 | h1
    · revert h1; decide
    · exact h h1
  have e : paramLine p = (lit "set_event" ++ lit "." ++ p.1.toString) ++ '=' :: p.2.toString := by
    simp [paramLine, lit]
  unfold lineParam
  rw [e, beforeEq_append _ _ hne, afterEq_append _ _ hne]
  have hc : ((lit "set_event" ++ lit "." ++ p.1.toString) ++ '=' :: p.2.toString).contains '=' =
      true := by simp
  have hs : startsWith (lit "set_event" ++ lit "." ++ p.1.toString)
      (lit "set_event" ++ lit ".") = true := by
    unfold startsWith
    rw [List.isPrefixOf_iff_prefix]
    exact List.prefix_append _ _
  have hm : mid (lit "set_event" ++ lit "." ++ p.1.toString) ((lit "set_event").length + 1) =
      p.1.toString := by
    unfold mid
    have : (lit "set_event").length + 1 = (lit "set_event" ++ lit ".").length := by decide
    rw [this, List.drop_left]
  rw [hc, hs, hm]
  rfl

theorem params_paramLines (pairs : List (QVariant × QVariant))
    (h : ∀ p ∈ pairs, '=' ∉ p.1.toString) :
    DecodeCommand.params (lit "set_event") (pairs.map paramLine) =
      (paramList (pairs.map fun p => (p.1.toString, p.2.toString)), []) := by
  induction pairs with
  | nil => rfl
  | cons p rest ih =>
    rw [List.map_cons, params_cons, lineParam_paramLine p (h p (List.mem_cons_self _ _)),
      ih (fun q hq => h q (List.mem_cons_of_mem _ hq))]
    rfl

theorem not_mem_paramLine (p : QVariant × QVariant) (h1 : '\n' ∉ p.1.toString)
    (h2 : '\n' ∉ p.2.toString) : '\n' ∉ paramLine p := by
  unfold paramLine
  intro hm
  simp only [List.mem_append] at hm
  rcases hm with ((((h | h) | h) | h) | h)
  · revert h; decide
  · revert h; decide
  · exact h1 h
  · revert h; decide
  · exact h2 h

theorem header_encode (pairs : List (QVariant × QVariant))
    (h : ∀ p ∈ pairs, '\n' ∉ p.1.toString ∧ '\n' ∉ p.2.toString) :
    DecodeCommand.header (trimmed (EncodeCommand .SetEvent (flatPairs pairs))) =
      some (.inr (ToQStr .SetEvent, pairs.map paramLine)) := by
  have hlines : split '\n' (trimmed (EncodeCommand .SetEvent (flatPairs pairs))) =
      lit "command=set_event" :: (pairs.map paramLine ++ [lit "endcommand=set_event"]) := by
    rw [encode_trimmed]
    have e : lit "command=set_event\n" ++ EncodeCommand.params (lit "set_event") (flatPairs pairs)
          ++ lit "endcommand=set_event" =
        lit "command=set_event" ++ '\n' ::
          (EncodeCommand.params (lit "set_event") (flatPairs pairs) ++
            lit "endcommand=set_event") := by
      simp [lit]
    rw [e, split_append_sep _ _ _ (by decide), encode_params_flat,
      if_pos (fun p hp => not_mem_paramLine p (h p hp).1 (h p hp).2),
      split_of_not_mem _ _ (by decide)]
  rw [header_of _ (lit "command=set_event") (lit "endcommand=set_event")
    (by rw [hlines]; rfl)
    (by rw [hlines, ← List.cons_append]; exact List.getLast?_concat _)]
  rw [if_neg (by decide), if_neg (by decide), hlines]
  simp only [List.drop_one, List.tail_cons, List.dropLast_concat]
  rfl

theorem fromParams_toParams (ev : RGPInteropEvent) (version : Nat)
    (h1 : ev.rgplinearid < 2 ^ 32) (h2 : ev.cmdbufid < 2 ^ 32) :
    RGPInteropEvent.fromParams {} version
      (paramList [(lit "rgplinearid", uintToString ev.rgplinearid),
        (lit "cmdbufid", uintToString ev.cmdbufid), (lit "eventname", ev.eventname)]) =
      (ev, []) := by
  have n1 : lit "cmdbufid" ≠ lit "rgplinearid" := by decide
  have n2 : lit "eventname" ≠ lit "rgplinearid" := by decide
  have n3 : lit "eventname" ≠ lit "cmdbufid" := by decide
  simp only [paramList, List.flatMap_cons, List.flatMap_nil, List.append_nil, List.cons_append,
    List.nil_append, RGPInteropEvent.fromParams, QVariant.toString, QVariant.toUInt, if_true,
    n1, n2, n3, if_false, toUInt_uintToString _ (lt_trans h1 (by norm_num)),
    toUInt_uintToString _ (lt_trans h2 (by norm_num)), Nat.mod_eq_of_lt h1,
    Nat.mod_eq_of_lt h2]

set_option maxRecDepth 100000 in
/-- C4 fails as stated: the text `EncodeCommand` produces ends with a newline,
so its last line is empty and `DecodeCommand` rejects it as malformed, for the
empty parameter list and for the parameters of the scenario entry alike; and
for a parameter name that contains `=`, the trimmed text decodes to another
name and value. -/
theorem decode_of_encode_fails :
    DecodeCommand.header (EncodeCommand .SetEvent []) = some (.inl .malformedCommand) ∧
    DecodeCommand scenarioIndex scenarioCtx
        (EncodeCommand .SetEvent
          (RGPInteropEvent.toParams
            { rgplinearid := 1, cmdbufid := 0, eventname := lit "DrawIndexed" } 1)) =
      some (false, [.warning .malformedCommand]) ∧
    DecodeCommand.header
        (trimmed (EncodeCommand .SetEvent [.str (lit "a=b"), .str (lit "c")])) =
      some (.inr (ToQStr .SetEvent, [lit "set_event.a=b=c"])) ∧
    (DecodeCommand.params (ToQStr .SetEvent) [lit "set_event.a=b=c"]).1 =
      [.str (lit "a"), .str (lit "b=c")] := by
  refine ⟨by decide, by decide, by decide, by decide⟩

/-- C4 as amended: for the set_event command, decoding the trimmed text of
`EncodeCommand` (the text `SelectEvent` sends) passes the begin/end checks
with the command name `set_event` and yields, without a warning, the same
ordered names and values as strings, for every list of pairs whose names hold
no `=`, no newline and no `%` (a place marker of the format) and whose values
hold no newline; and for an event whose numbers fit 32 bits and whose name
holds no newline, `fromParams` of the list decoded from the text of `toParams`
rebuilds the event. -/
theorem decode_encode_roundtrip :
    (∀ pairs : List (QVariant × QVariant),
      (∀ p ∈ pairs, '=' ∉ p.1.toString ∧ '\n' ∉ p.1.toString ∧ '%' ∉ p.1.toString ∧
        '\n' ∉ p.2.toString) →
      ∃ lines,
        DecodeCommand.header (trimmed (EncodeCommand .SetEvent (flatPairs pairs))) =
          some (.inr (ToQStr .SetEvent, lines)) ∧
        DecodeCommand.params (ToQStr .SetEvent) lines =
          (paramList (pairs.map fun p => (p.1.toString, p.2.toString)), [])) ∧
    (∀ (ev : RGPInteropEvent) (version : Nat),
      ev.rgplinearid < 2 ^ 32 → ev.cmdbufid < 2 ^ 32 → '\n' ∉ ev.eventname →
      ∃ lines,
        DecodeCommand.header (trimmed (EncodeCommand .SetEvent (ev.toParams version))) =
          some (.inr (ToQStr .SetEvent, lines)) ∧
        RGPInteropEvent.fromParams {} version
          (DecodeCommand.params (ToQStr .SetEvent) lines).1 = (ev, [])) := by
  have part1 : ∀ pairs : List (QVariant × QVariant),
      (∀ p ∈ pairs, '=' ∉ p.1.toString ∧ '\n' ∉ p.1.toString ∧ '\n' ∉ p.2.toString) →
      DecodeCommand.header (trimmed (EncodeCommand .SetEvent (flatPairs pairs))) =
          some (.inr (ToQStr .SetEvent, pairs.map paramLine)) ∧
        DecodeCommand.params (ToQStr .SetEvent) (pairs.map paramLine) =
          (paramList (pairs.map fun p => (p.1.toString, p.2.toString)), []) := by
    intro pairs h
    exact ⟨header_encode pairs (fun p hp => ⟨(h p hp).2.1, (h p hp).2.2⟩),
      params_paramLines pairs (fun p hp => (h p hp).1)⟩
  refine ⟨?_, ?_⟩
  · intro pairs h
    exact ⟨_, part1 pairs (fun p hp => ⟨(h p hp).1, (h p hp).2.1, (h p hp).2.2.2⟩)⟩
  · intro ev version h1 h2 hn
    have hflat : ev.toParams version =
        flatPairs [(.str (lit "rgplinearid"), .uint ev.rgplinearid),
          (.str (lit "cmdbufid"), .uint ev.cmdbufid),
          (.str (lit "eventname"), .str ev.eventname)] := rfl
    have hok : ∀ p ∈ [((.str (lit "rgplinearid"), .uint ev.rgplinearid) : QVariant × QVariant),
          (.str (lit "cmdbufid"), .uint ev.cmdbufid),
          (.str (lit "eventname"), .str ev.eventname)],
        '=' ∉ p.1.toString ∧ '\n' ∉ p.1.toString ∧ '\n' ∉ p.2.toString := by
      intro p hp
      simp only [List.mem_cons, List.mem_singleton, List.not_mem_nil, or_false] at hp
      have k1 : '=' ∉ lit "rgplinearid" ∧ '\n' ∉ lit "rgplinearid" := by decide
      have k2 : '=' ∉ lit "cmdbufid" ∧ '\n' ∉ lit "cmdbufid" := by decide
      have k3 : '=' ∉ lit "eventname" ∧ '\n' ∉ lit "eventname" := by decide
      rcases hp with rfl | rfl | rfl
      · exact ⟨k1.1, k1.2, (uintToString_spec _).2.1⟩
      · exact ⟨k2.1, k2.2, (uintToString_spec _).2.1⟩
      · exact ⟨k3.1, k3.2, hn⟩
    obtain ⟨hh, hp⟩ := part1 _ hok
    rw [hflat]
    refine ⟨_, hh, ?_⟩
    rw [hp]
    exact fromParams_toParams ev version h1 h2

/-- C4 as amended, on the scenario entry. -/
theorem decode_encode_roundtrip_witness :
    ∃ lines,
      DecodeCommand.header (trimmed (EncodeCommand .SetEvent
        (RGPInteropEvent.toParams
          { rgplinearid := 1, cmdbufid := 0, eventname := lit "DrawIndexed" } 1))) =
        some (.inr (ToQStr .SetEvent, lines)) ∧
      RGPInteropEvent.fromParams {} 1 (DecodeCommand.params (ToQStr .SetEvent) lines).1 =
        ({ rgplinearid := 1, cmdbufid := 0, eventname := lit "DrawIndexed" }, []) :=
  decode_encode_roundtrip.2
    { rgplinearid := 1, cmdbufid := 0, eventname := lit "DrawIndexed" } 1
    (by decide) (by decide) (by decide)

end RenderDoc
